import Mathlib

/-!
Verification of the monoalphabetic substitution decipherer in src/main.py.

Modelling conventions:
* Texts are lists of characters; a Python dict from cipher letter to plain
  letter is an association list (type Key) whose fst components are the keys
  in insertion order, matching the iteration order of the Python dict.
* Python floats are modelled as exact rationals; every numeric constant of
  the program is a short decimal, so each one is represented exactly.
* Fallible operations return Option: assignLeftovers models the
  leftovers.pop(0) call of permute_fix (IndexError on an empty list) and
  sample2 models random.sample(vals, 2) (ValueError when len(vals) < 2).
* The process-wide random generator and the hash-dependent iteration order
  of Python sets are modelled by a SearchEnv oracle: pairs gives the index
  choices of the n-th random.sample call, accept gives the Boolean outcome
  of the comparison random.random() < math.exp(arg) at the n-th
  random.random call (exp is transcendental, so the comparison outcome is
  the oracle datum), and ord gives the iteration order that list(set(xs))
  produces, constrained by validOrd to be an ordering of the distinct
  elements.
* decipherT additionally returns ghost data (scores of all scored, of all
  accepted candidates, and the running best after each annealing iteration).
  The ghost data is write-only instrumentation: it influences nothing.
-/

namespace Descifrador

/-- Alphabet of 27 Spanish letters including ñ (main.py line 28). -/
def ALPH : List Char := "abcdefghijklmnñopqrstuvwxyz".toList

def VOWELS : List Char := "aeiou".toList

def SPANISH_FREQ_ORDER : List Char := "eaosrnidltucmpbgyvfqhxzjñkw".toList

def BIGRAM_SCORES : List (List Char × Rat) := [
  ("de".toList, 4.5), ("en".toList, 4.3), ("es".toList, 4.0), ("la".toList, 4.0),
  ("el".toList, 3.8), ("que".toList, 3.5), ("qu".toList, 3.2),
  ("re".toList, 3.0), ("ra".toList, 2.9), ("os".toList, 2.8), ("ar".toList, 2.8),
  ("co".toList, 2.7), ("te".toList, 2.7), ("an".toList, 2.6),
  ("as".toList, 2.6), ("er".toList, 2.5), ("se".toList, 2.5), ("or".toList, 2.4),
  ("al".toList, 2.4), ("ci".toList, 2.3), ("to".toList, 2.2),
  ("nt".toList, 2.2), ("lo".toList, 2.1), ("no".toList, 2.1), ("pa".toList, 2.0),
  ("po".toList, 1.9), ("ma".toList, 1.8), ("is".toList, 1.8),
  ("ta".toList, 1.8), ("in".toList, 1.7), ("na".toList, 1.7), ("ro".toList, 1.7),
  ("mi".toList, 1.6), ("li".toList, 1.5), ("do".toList, 1.5),
  ("ue".toList, 1.5), ("me".toList, 1.4), ("pe".toList, 1.4), ("bi".toList, 1.3),
  ("ga".toList, 1.2), ("ya".toList, 1.1), ("ve".toList, 1.1),
  ("ho".toList, 1.0), ("va".toList, 1.0), ("mo".toList, 1.0)]

/-- Trigram table (main.py lines 44-49).  The Python dict literal repeats the
keys "que" (7.0 twice), "ela" (3.8 twice) and "ara" (3.5 then 3.0); a dict
literal keeps the last value per key, so the effective table below has one
entry per key with "ara" at 3.0. -/
def TRIGRAM_SCORES : List (List Char × Rat) := [
  ("que".toList, 7.0), ("ent".toList, 5.5), ("con".toList, 5.0), ("los".toList, 4.8),
  ("las".toList, 4.6), ("del".toList, 4.6),
  ("una".toList, 4.5), ("por".toList, 4.4), ("est".toList, 4.2), ("ela".toList, 3.8),
  ("aci".toList, 3.5),
  ("ara".toList, 3.0), ("res".toList, 3.4), ("dos".toList, 3.3), ("par".toList, 3.2),
  ("pro".toList, 3.2), ("men".toList, 3.1),
  ("ion".toList, 3.0), ("era".toList, 2.9), ("tra".toList, 2.9)]

def COMMON_WORDS : List (List Char) := [
  "de".toList, "la".toList, "que".toList, "el".toList, "en".toList, "y".toList,
  "a".toList, "los".toList, "se".toList, "del".toList, "las".toList, "un".toList,
  "por".toList, "con".toList,
  "no".toList, "una".toList, "su".toList, "para".toList, "es".toList, "al".toList,
  "lo".toList, "como".toList, "más".toList, "pero".toList, "sus".toList, "le".toList,
  "ya".toList,
  "o".toList, "este".toList, "sí".toList, "porque".toList, "cuando".toList,
  "muy".toList, "sin".toList, "sobre".toList, "también".toList, "me".toList,
  "hasta".toList]

/-- Letters-only projection (main.py lines 64-66). -/
def only_letters (text : List Char) : List Char :=
  text.filter (fun c => c ∈ ALPH)

/-- A Python dict from cipher letter to plain letter, as an association list in
dict insertion order. -/
abbrev Key : Type := List (Char × Char)

/-- Distinct elements of a list in order of first occurrence: the key order of
Counter(s), which preserves insertion order. -/
def distinctFirst : List Char → List Char
  | [] => []
  | c :: rest => c :: (distinctFirst rest).filter (fun x => x ≠ c)

/-- Lines 73-74: cipher letters sorted by descending count; Counter.most_common
is a stable sort on the first-occurrence key order. -/
def freqOrderOf (s : List Char) : List Char :=
  (distinctFirst s).mergeSort (fun a b => s.count b ≤ s.count a)

/-- Lines 73-78: the most-common order followed by the remaining alphabet
letters in alphabet order. -/
def cipherOrderOf (s : List Char) : List Char :=
  freqOrderOf s ++ ALPH.filter (fun c => c ∉ freqOrderOf s)

/-- Lines 79-85: the target sequence, with 'e' moved to the front when force_e
is set and cipher_order is nonempty. -/
def plainOrderOf (force_e : Bool) (cipher_order : List Char) : List Char :=
  if force_e = true ∧ cipher_order ≠ [] then
    let po1 := if 'e' ∈ SPANISH_FREQ_ORDER then SPANISH_FREQ_ORDER.erase 'e'
               else SPANISH_FREQ_ORDER
    'e' :: po1.filter (fun x => x ≠ 'e')
  else SPANISH_FREQ_ORDER

/-- The get method of the dict built by the comprehension on line 87: repeated
insertion, a later binding for the same key wins. -/
def dictGet (pairs : List (Char × Char)) : Char → Option Char :=
  pairs.foldl (fun f p => fun c => if c = p.1 then some p.2 else f c) (fun _ => none)

/-- First loop of permute_fix (lines 94-102): walk the alphabet, keep a
proposed image when it is an alphabet letter not yet used, otherwise record
None.  The used accumulator collects the kept images in order. -/
def firstPass (mapping : Char → Option Char) : List Char → List Char → List (Char × Option Char)
  | _, [] => []
  | used, c :: cs =>
    match mapping c with
    | some p =>
      if p ∈ ALPH ∧ p ∉ used then (c, some p) :: firstPass mapping (used ++ [p]) cs
      else (c, none) :: firstPass mapping used cs
    | none => (c, none) :: firstPass mapping used cs

/-- Second loop of permute_fix (lines 105-107): fill each None slot with the
next leftover, in order.  Returns none when leftovers run out, which is the
IndexError that leftovers.pop(0) would raise on an empty list. -/
def assignLeftovers : List (Char × Option Char) → List Char → Option (List (Char × Char))
  | [], _ => some []
  | (c, some p) :: rest, lo => (assignLeftovers rest lo).map (fun r => (c, p) :: r)
  | (_, none) :: _, [] => none
  | (c, none) :: rest, l :: lo => (assignLeftovers rest lo).map (fun r => (c, l) :: r)

/-- permute_fix (main.py lines 92-108).  The used set after the first loop is
exactly the set of non-None recorded images, so the leftovers filter uses the
collected images. -/
def permute_fix (mapping : Char → Option Char) : Option Key :=
  let res := firstPass mapping [] ALPH
  let used := res.filterMap (fun e => e.2)
  let leftovers := ALPH.filter (fun x => x ∉ used)
  assignLeftovers res leftovers

/-- The dict comprehension on line 87: index i of cipher_order is proposed to
map to plain_order[i % len(plain_order)]; plain_order always has 27 entries,
so the getD default is unreachable. -/
def proposedOf (s : List Char) (force_e : Bool) : List (Char × Char) :=
  (cipherOrderOf s).enum.map
    (fun ic => (ic.2, (plainOrderOf force_e (cipherOrderOf s)).getD
      (ic.1 % (plainOrderOf force_e (cipherOrderOf s)).length) 'a'))

/-- initial_key_from_freq (main.py lines 71-90). -/
def initial_key_from_freq (s : List Char) (force_e : Bool) : Option Key :=
  permute_fix (dictGet (proposedOf s force_e))

/-- Image of a letter under a key: mapping[ch] on line 115.  Every key the
program builds has all 27 alphabet letters as dict keys (proved in the C1
theorem), so the dict access never raises and the getD default is
unreachable there. -/
def keyImage (mapping : Key) (c : Char) : Char :=
  (mapping.lookup c).getD c

/-- apply_mapping (main.py lines 110-118). -/
def apply_mapping (text : List Char) (mapping : Key) : List Char :=
  text.map (fun ch => if ch ∈ ALPH then keyImage mapping ch else ch)

/-- Sentinel score -1e9 for letter-free text (main.py line 128). -/
def SENTINEL : Rat := -1000000000

/-- The length-2 slices letters[i:i+2] for i in range(n-1), line 131-132. -/
def bigramsOf : List Char → List (List Char)
  | a :: b :: rest => [a, b] :: bigramsOf (b :: rest)
  | _ => []

/-- The length-3 slices letters[i:i+3] for i in range(n-2), line 136-137. -/
def trigramsOf : List Char → List (List Char)
  | a :: b :: c :: rest => [a, b, c] :: trigramsOf (b :: c :: rest)
  | _ => []

/-- ASCII whitespace as recognised by str.split. -/
def isSpace (c : Char) : Bool :=
  c = ' ' || c = '\t' || c = '\n' || c = '\x0b' || c = '\x0c' || c = '\r'

/-- plain.split() on line 141: maximal runs of non-whitespace characters. -/
def splitWS (acc : List Char) : List Char → List (List Char)
  | [] => if acc = [] then [] else [acc.reverse]
  | c :: rest =>
    if isSpace c then
      (if acc = [] then splitWS [] rest else acc.reverse :: splitWS [] rest)
    else splitWS (c :: acc) rest

/-- score_text (main.py lines 122-154). -/
def score_text (plain : List Char) : Rat :=
  let letters := only_letters plain
  let n := letters.length
  if n = 0 then SENTINEL
  else
    let sB := ((bigramsOf letters).map
      (fun bg => (BIGRAM_SCORES.lookup bg).getD (-0.8))).sum
    let sT := ((trigramsOf letters).map
      (fun tg => (TRIGRAM_SCORES.lookup tg).getD (-0.5))).sum
    let words := splitWS [] plain
    let sW := (COMMON_WORDS.map
      (fun w => let c := words.count w
                if c ≠ 0 then (6.0 : Rat) * (c : Rat) else 0)).sum
    let vowels := (letters.filter (fun ch => ch ∈ VOWELS)).length
    let ratio : Rat := (vowels : Rat) / ((max 1 n : ℕ) : Rat)
    sB + sT + sW - 50.0 * (ratio - 0.45) ^ 2

/-- Effect of the loop body on lines 165-169 on a single image: a becomes b,
b becomes a, anything else is unchanged. -/
def swapC (a b y : Char) : Char :=
  if y = a then b else if y = b then a else y

/-- Loop body of random_swap_key (lines 164-169): every key whose image is a
becomes b and vice versa. -/
def swapImage (m : Key) (a b : Char) : Key :=
  m.map (fun p => (p.1, swapC a b p.2))

/-- random.sample(vals, 2) on line 163: two distinct positions of vals chosen
from the oracle numbers i and j; ValueError (none) when len(vals) < 2.  Both
getD defaults are unreachable because the chosen positions are below the
length. -/
def sample2 (vals : List Char) (i j : ℕ) : Option (Char × Char) :=
  if 2 ≤ vals.length then
    let i1 := i % vals.length
    let j0 := j % (vals.length - 1)
    let j1 := if j0 < i1 then j0 else j0 + 1
    some (vals.getD i1 'a', vals.getD j1 'a')
  else none

/-- random_swap_key (main.py lines 158-170); ord models the iteration order of
list(set(m.values())). -/
def random_swap_key (m : Key) (ord : List Char → List Char) (ij : ℕ × ℕ) : Option Key :=
  match sample2 (ord (m.map (fun p => p.2))) ij.1 ij.2 with
  | some (a, b) => some (swapImage m a b)
  | none => none

/-- Oracle for the ambient randomness and the set iteration order; see the
header comment. -/
structure SearchEnv where
  ord : List Char → List Char
  pairs : ℕ → ℕ × ℕ
  accept : ℕ → Rat → Bool

/-- An ord oracle is a possible Python set iteration order when it lists the
distinct elements of its input exactly once, in some order. -/
def validOrd (ord : List Char → List Char) : Prop :=
  ∀ l : List Char, (ord l).Perm l.dedup

/-- shake_key (main.py lines 206-210), threading the sample-call counter. -/
def shakeLoop (env : SearchEnv) : ℕ → Key → ℕ → Option (Key × ℕ)
  | 0, m, np => some (m, np)
  | s + 1, m, np =>
    match random_swap_key m env.ord (env.pairs np) with
    | some m2 => shakeLoop env s m2 (np + 1)
    | none => none

/-- A (key, decoded text, score) triple of the search. -/
structure Cand where
  key : Key
  plain : List Char
  score : Rat
deriving DecidableEq

/-- Search state: the two oracle counters (np for random.sample calls, nu for
random.random calls), the current candidate and the best candidate. -/
structure SState where
  np : ℕ
  nu : ℕ
  cur : Cand
  best : Cand
deriving DecidableEq

/-- Ghost instrumentation: scores of every candidate decoded and scored, the
scores of the accepted proposals, and the best score after each annealing
iteration.  Write-only; the search never reads it. -/
structure Ghost where
  scored : List Rat
  accepted : List Rat
  bests : List Rat
deriving DecidableEq

/-- Initial temperature T0 = 2.0 (main.py line 188). -/
def T0 : Rat := 2

/-- Temperature floor Tmin = 0.01 (main.py line 189). -/
def Tmin : Rat := 1 / 100

/-- Temperature at 1-indexed iteration t of iters (main.py line 191). -/
def temp (t iters : ℕ) : Rat :=
  max Tmin (T0 * (1 - (t : Rat) / (iters : Rat)))

/-- Best update on lines 201-202: replace best only on strict improvement. -/
def bestUpd (best c : Cand) : Cand :=
  if best.score < c.score then c else best

/-- One iteration of the annealing loop (main.py lines 192-202).  Returns the
new state, the score of the proposal, and whether it was accepted.  The
accept oracle is consulted only when delta < 0, matching the short-circuit
of the or on line 197, and receives the argument of math.exp. -/
def annealStep (cipher : List Char) (env : SearchEnv) (T : Rat) (st : SState) :
    Option (SState × Rat × Bool) :=
  match random_swap_key st.cur.key env.ord (env.pairs st.np) with
  | none => none
  | some nk =>
    let nplain := apply_mapping cipher nk
    let nscore := score_text nplain
    let delta := nscore - st.cur.score
    let accRes : Bool × ℕ :=
      if 0 ≤ delta then (true, st.nu)
      else (env.accept st.nu (delta / max T (1 / 1000000)), st.nu + 1)
    if accRes.1 then
      some (⟨st.np + 1, accRes.2, ⟨nk, nplain, nscore⟩,
             bestUpd st.best ⟨nk, nplain, nscore⟩⟩, nscore, true)
    else
      some (⟨st.np + 1, accRes.2, st.cur, st.best⟩, nscore, false)

/-- The annealing loop for t in range(1, iters+1) (main.py lines 190-202),
by recursion on the number rem of remaining iterations; the iteration index
is t = iters - rem + 1.  Also accumulates the ghost data. -/
def annealLoop (cipher : List Char) (env : SearchEnv) (iters : ℕ) :
    ℕ → SState → Option (SState × Ghost)
  | 0, st => some (st, ⟨[], [], []⟩)
  | rem + 1, st =>
    match annealStep cipher env (temp (iters - rem) iters) st with
    | none => none
    | some (st2, nscore, acc) =>
      match annealLoop cipher env iters rem st2 with
      | none => none
      | some (stF, g) =>
        some (stF, ⟨nscore :: g.scored,
                    if acc then nscore :: g.accepted else g.accepted,
                    st2.best.score :: g.bests⟩)

/-- The restart loop for r in range(restarts) (main.py lines 182-202): restart
0 starts from the base key, every later restart from shake_key(base_key, 50).
The score of the restart starting point is recorded in the scored ghost list
but the best candidate is not updated from it, exactly as in the source. -/
def restartLoop (cipher : List Char) (env : SearchEnv) (iters restarts : ℕ) (baseKey : Key) :
    ℕ → ℕ × ℕ → Cand → Option ((ℕ × ℕ) × Cand × Ghost)
  | 0, ctrs, best => some (ctrs, best, ⟨[], [], []⟩)
  | rem + 1, ctrs, best =>
    let r := restarts - (rem + 1)
    let start? : Option (Key × ℕ) :=
      if r = 0 then some (baseKey, ctrs.1) else shakeLoop env 50 baseKey ctrs.1
    match start? with
    | none => none
    | some (ck, np1) =>
      let cplain := apply_mapping cipher ck
      let cscore := score_text cplain
      match annealLoop cipher env iters iters ⟨np1, ctrs.2, ⟨ck, cplain, cscore⟩, best⟩ with
      | none => none
      | some (stF, g) =>
        match restartLoop cipher env iters restarts baseKey rem (stF.np, stF.nu) stF.best with
        | none => none
        | some (ctrsF, bestF, g2) =>
          some (ctrsF, bestF,
                ⟨cscore :: (g.scored ++ g2.scored),
                 g.accepted ++ g2.accepted,
                 g.bests ++ g2.bests⟩)

/-- Result of a run: the returned best (plain, key, score) plus the seed score
and the ghost data. -/
structure RunOut where
  plain : List Char
  key : Key
  score : Rat
  seedScore : Rat
  ghost : Ghost
deriving DecidableEq

/-- decipher (main.py lines 172-204) with ghost instrumentation.  The call
random.seed(seed) on line 174 only resets the generator; the generator
itself is the env oracle. -/
def decipherT (cipher : List Char) (restarts iters : ℕ) (env : SearchEnv)
    (force_e : Bool) : Option RunOut :=
  let letters_only := only_letters cipher
  match initial_key_from_freq letters_only force_e with
  | none => none
  | some base_key =>
    let best_plain := apply_mapping cipher base_key
    let best_score := score_text best_plain
    match restartLoop cipher env iters restarts base_key restarts (0, 0)
        ⟨base_key, best_plain, best_score⟩ with
    | none => none
    | some (_, bestF, g) => some ⟨bestF.plain, bestF.key, bestF.score, best_score, g⟩

/-- decipher (main.py lines 172-204): the (best_plain, best_key, best_score)
triple, none on the error paths modelled in decipherT. -/
def decipher (cipher : List Char) (restarts iters : ℕ) (env : SearchEnv)
    (force_e : Bool) : Option (List Char × Key × Rat) :=
  (decipherT cipher restarts iters env force_e).map (fun o => (o.plain, o.key, o.score))

/-- Keys with dict-key list exactly the alphabet and image multiset exactly
the alphabet: the bijection invariant of the specification. -/
def isBijKey (k : Key) : Prop :=
  k.map (fun p => p.1) = ALPH ∧ (k.map (fun p => p.2)).Perm ALPH

instance (k : Key) : Decidable (isBijKey k) :=
  inferInstanceAs (Decidable (_ ∧ _))

def idKey : Key := ALPH.map (fun c => (c, c))

def bigramTermSpec (letters : List Char) : Rat :=
  ∑ i ∈ Finset.range (letters.length - 1),
    (BIGRAM_SCORES.lookup ((letters.drop i).take 2)).getD (-0.8)

def trigramTermSpec (letters : List Char) : Rat :=
  ∑ i ∈ Finset.range (letters.length - 2),
    (TRIGRAM_SCORES.lookup ((letters.drop i).take 3)).getD (-0.5)

def lexiconTermSpec (plain : List Char) : Rat :=
  (COMMON_WORDS.map (fun w => (6.0 : Rat) * ((splitWS [] plain).count w : Rat))).sum

def vowelRatioOf (letters : List Char) : Rat :=
  ((letters.filter (fun ch => ch ∈ VOWELS)).length : Rat) / (letters.length : Rat)

def bigText : List Char := 'd' :: 'e' :: List.replicate (999999998 + 2) 'z'

def c9cipher : List Char := "de la casa".toList

def c9envA : SearchEnv := ⟨distinctFirst, fun _ => (3, 4), fun _ _ => true⟩

def c9envB : SearchEnv :=
  ⟨fun l => (distinctFirst l).reverse, fun _ => (3, 4), fun _ _ => true⟩

def c6cipher : List Char := "de la casa que".toList

/-- Index stream for the C6 counterexample: the restart-0 proposal is a
worsening swap, the 50 shake steps of restart 1 are 48 mutually cancelling
swaps followed by two improving swaps, and the restart-1 proposal is again a
worsening swap. -/
def c6pairs (n : ℕ) : ℕ × ℕ :=
  if n = 0 then (4, 9)
  else if n ≤ 48 then (0, 0)
  else if n = 49 then (4, 3)
  else if n = 50 then (3, 6)
  else (7, 3)

def c6env : SearchEnv := ⟨distinctFirst, c6pairs, fun _ _ => false⟩

def c6run : Option RunOut := decipherT c6cipher 2 1 c6env true

def w6out : RunOut := (decipherT [] 0 0 c9envA true).getD ⟨[], [], 0, 0, ⟨[], [], []⟩⟩

-- Scratch theorems: C2, C4, C8, C10 groundwork

lemma apply_mapping_getD (text : List Char) (k : Key) (i : ℕ) (hi : i < text.length) :
    (apply_mapping text k).getD i ' ' =
      (if text.getD i ' ' ∈ ALPH then keyImage k (text.getD i ' ') else text.getD i ' ') := by
  unfold apply_mapping
  rw [List.getD_eq_getElem?_getD, List.getElem?_map, List.getElem?_eq_getElem hi]
  rw [List.getD_eq_getElem?_getD, List.getElem?_eq_getElem hi]
  rfl

/-- C2: apply_mapping preserves length, passes non-alphabet characters through
unchanged at their positions, and substitutes each alphabet character by its
image under the key. -/
theorem C2_apply_mapping_spec (text : List Char) (k : Key) (hk : isBijKey k) :
    (apply_mapping text k).length = text.length ∧
    ∀ i, i < text.length →
      (text.getD i ' ' ∉ ALPH → (apply_mapping text k).getD i ' ' = text.getD i ' ') ∧
      (text.getD i ' ' ∈ ALPH → (apply_mapping text k).getD i ' ' = keyImage k (text.getD i ' ')) := by
  refine ⟨by simp [apply_mapping], fun i hi => ⟨fun h => ?_, fun h => ?_⟩⟩
  · rw [apply_mapping_getD text k i hi, if_neg h]
  · rw [apply_mapping_getD text k i hi, if_pos h]

theorem C2_witness :
    isBijKey idKey ∧
    ((apply_mapping "hola, mundo".toList idKey).length = "hola, mundo".toList.length ∧
    ∀ i, i < "hola, mundo".toList.length →
      ("hola, mundo".toList.getD i ' ' ∉ ALPH →
        (apply_mapping "hola, mundo".toList idKey).getD i ' ' = "hola, mundo".toList.getD i ' ') ∧
      ("hola, mundo".toList.getD i ' ' ∈ ALPH →
        (apply_mapping "hola, mundo".toList idKey).getD i ' ' =
          keyImage idKey ("hola, mundo".toList.getD i ' '))) :=
  ⟨by decide, C2_apply_mapping_spec "hola, mundo".toList idKey (by decide)⟩

lemma swapC_invol (a b y : Char) : swapC a b (swapC a b y) = y := by
  unfold swapC
  by_cases h1 : y = a
  · subst h1
    by_cases h2 : b = y <;> simp [h2]
  · by_cases h2 : y = b
    · subst h2
      simp [h1]
    · simp [h1, h2]

lemma swapC_inj (a b : Char) : Function.Injective (swapC a b) :=
  Function.Involutive.injective (swapC_invol a b)

/-- C4: swapping the same two images twice restores the key. -/
theorem C4_swap_involution (k : Key) (a b : Char) (hk : isBijKey k) (hab : a ≠ b) :
    swapImage (swapImage k a b) a b = k := by
  unfold swapImage
  rw [List.map_map]
  calc k.map _ = k.map id :=
        List.map_congr_left (fun p _ => by
          simp only [Function.comp_apply, id, swapC_invol])
    _ = k := List.map_id k

theorem C4_witness :
    isBijKey idKey ∧ ('a' : Char) ≠ 'b' ∧
      swapImage (swapImage idKey 'a' 'b') 'a' 'b' = idKey :=
  ⟨by decide, by decide, C4_swap_involution idKey 'a' 'b' (by decide) (by decide)⟩

/-- C8 counterexample: at the final iteration t = iters the linear term is 0,
so the temperature equals Tmin exactly, refuting that it never reaches Tmin. -/
theorem C8_counterexample : (1 : ℕ) ≤ 1 ∧ temp 1 1 = Tmin := by
  constructor
  · decide
  · norm_num [temp, Tmin, T0]

/-- C8 amended: the temperature formula, and it never goes strictly below
Tmin, reaching it exactly when the linear term is at or below Tmin. -/
theorem C8_temperature_amended (t iters : ℕ) (h1 : 1 ≤ t) (h2 : t ≤ iters) :
    temp t iters = max Tmin (T0 * (1 - (t : Rat) / (iters : Rat))) ∧
    Tmin ≤ temp t iters ∧
    (T0 * (1 - (t : Rat) / (iters : Rat)) ≤ Tmin → temp t iters = Tmin) :=
  ⟨rfl, le_max_left _ _, fun h => max_eq_left h⟩

theorem C8_witness :
    (1 : ℕ) ≤ 1 ∧ (1 : ℕ) ≤ 2 ∧
    (temp 1 2 = max Tmin (T0 * (1 - (1 : Rat) / (2 : Rat))) ∧
     Tmin ≤ temp 1 2 ∧
     (T0 * (1 - (1 : Rat) / (2 : Rat)) ≤ Tmin → temp 1 2 = Tmin)) :=
  ⟨by decide, by decide, C8_temperature_amended 1 2 (by decide) (by decide)⟩

lemma mem_cipherOrderOf (s : List Char) (c : Char) (hc : c ∈ ALPH) : c ∈ cipherOrderOf s := by
  unfold cipherOrderOf
  by_cases h : c ∈ freqOrderOf s
  · exact List.mem_append_left _ h
  · exact List.mem_append_right _ (List.mem_filter.mpr ⟨hc, by simpa using h⟩)

lemma cipherOrderOf_ne_nil (s : List Char) : cipherOrderOf s ≠ [] :=
  fun h => by simpa [h] using mem_cipherOrderOf s 'a' (by decide)

lemma plainOrderOf_eq (force_e : Bool) (co : List Char) (h : co ≠ []) :
    plainOrderOf force_e co = SPANISH_FREQ_ORDER := by
  cases force_e
  · simp [plainOrderOf]
  · unfold plainOrderOf
    rw [if_pos ⟨rfl, h⟩]
    decide

/-- C10: since the reference frequency order already begins with the letter e,
the force_e option does not change the seed key. -/
theorem C10_force_e_identity (s : List Char) :
    initial_key_from_freq s true = initial_key_from_freq s false := by
  unfold initial_key_from_freq proposedOf
  rw [plainOrderOf_eq true _ (cipherOrderOf_ne_nil s),
      plainOrderOf_eq false _ (cipherOrderOf_ne_nil s)]

lemma bigramsOf_sum (f : List Char → Rat) : ∀ l : List Char,
    ((bigramsOf l).map f).sum = ∑ i ∈ Finset.range (l.length - 1), f ((l.drop i).take 2)
  | [] => by simp [bigramsOf]
  | [a] => by simp [bigramsOf]
  | a :: b :: t => by
    have ih := bigramsOf_sum f (b :: t)
    simp only [bigramsOf, List.map_cons, List.sum_cons, ih]
    have hlen : (a :: b :: t).length - 1 = ((b :: t).length - 1) + 1 := by simp
    rw [hlen, Finset.sum_range_succ']
    simp [add_comm]

lemma trigramsOf_sum (f : List Char → Rat) : ∀ l : List Char,
    ((trigramsOf l).map f).sum = ∑ i ∈ Finset.range (l.length - 2), f ((l.drop i).take 3)
  | [] => by simp [trigramsOf]
  | [a] => by simp [trigramsOf]
  | [a, b] => by simp [trigramsOf]
  | a :: b :: c :: t => by
    have ih := trigramsOf_sum f (b :: c :: t)
    simp only [trigramsOf, List.map_cons, List.sum_cons, ih]
    have hlen : (a :: b :: c :: t).length - 2 = ((b :: c :: t).length - 2) + 1 := by simp
    rw [hlen, Finset.sum_range_succ']
    simp [add_comm]

lemma score_text_eq (plain : List Char) (h : 1 ≤ (only_letters plain).length) :
    score_text plain =
      bigramTermSpec (only_letters plain) + trigramTermSpec (only_letters plain) +
      lexiconTermSpec plain -
      50 * (vowelRatioOf (only_letters plain) - 0.45) ^ 2 := by
  have hn : ¬ (only_letters plain).length = 0 := by omega
  simp only [score_text]
  rw [if_neg hn]
  rw [bigramsOf_sum, trigramsOf_sum]
  have hw : (COMMON_WORDS.map (fun w =>
      if ((splitWS [] plain).count w) ≠ 0 then
        (6.0 : Rat) * (((splitWS [] plain).count w : ℕ) : Rat) else 0)) =
      COMMON_WORDS.map (fun w => (6.0 : Rat) * (((splitWS [] plain).count w : ℕ) : Rat)) := by
    apply List.map_congr_left
    intro w _
    by_cases hc : ((splitWS [] plain).count w) = 0 <;> simp [hc]
  rw [hw]
  have hmax : (max 1 (only_letters plain).length : ℕ) = (only_letters plain).length :=
    max_eq_right h
  rw [hmax]
  norm_num [bigramTermSpec, trigramTermSpec, lexiconTermSpec, vowelRatioOf]

/-- C3: for text with at least one letter, the score is exactly the bigram sum,
plus the trigram sum, plus 6 times the lexicon occurrence counts, minus the
vowel-ratio penalty. -/
theorem C3_score_decomposition (plain : List Char) (h : 1 ≤ (only_letters plain).length) :
    score_text plain =
      bigramTermSpec (only_letters plain) + trigramTermSpec (only_letters plain) +
      lexiconTermSpec plain -
      50 * (vowelRatioOf (only_letters plain) - 0.45) ^ 2 :=
  score_text_eq plain h

theorem C3_witness :
    1 ≤ (only_letters "de".toList).length ∧
    score_text "de".toList =
      bigramTermSpec (only_letters "de".toList) + trigramTermSpec (only_letters "de".toList) +
      lexiconTermSpec "de".toList -
      50 * (vowelRatioOf (only_letters "de".toList) - 0.45) ^ 2 :=
  ⟨by decide, C3_score_decomposition "de".toList (by decide)⟩

lemma ALPH_nodup : ALPH.Nodup := by decide

lemma firstPass_keys (m : Char → Option Char) : ∀ (l used : List Char),
    (firstPass m used l).map (fun e => e.1) = l := by
  intro l
  induction l with
  | nil => intro used; rfl
  | cons c cs ih =>
    intro used
    cases hm : m c with
    | none => simp [firstPass, hm, ih]
    | some p =>
      by_cases hp : p ∈ ALPH ∧ p ∉ used
      · simp [firstPass, hm, if_pos hp, ih]
      · simp [firstPass, hm, if_neg hp, ih]

lemma firstPass_cons_some (m : Char → Option Char) (used : List Char) (c : Char)
    (cs : List Char) (p : Char) (hm : m c = some p) :
    firstPass m used (c :: cs) =
      if p ∈ ALPH ∧ p ∉ used then (c, some p) :: firstPass m (used ++ [p]) cs
      else (c, none) :: firstPass m used cs := by
  rw [firstPass, hm]

lemma firstPass_cons_none (m : Char → Option Char) (used : List Char) (c : Char)
    (cs : List Char) (hm : m c = none) :
    firstPass m used (c :: cs) = (c, none) :: firstPass m used cs := by
  rw [firstPass, hm]

lemma firstPass_somes_mem (m : Char → Option Char) : ∀ (l used : List Char), ∀ q,
    q ∈ (firstPass m used l).filterMap (fun e => e.2) → q ∈ ALPH ∧ q ∉ used := by
  intro l
  induction l with
  | nil => intro used q hq; simp [firstPass] at hq
  | cons c cs ih =>
    intro used q hq
    cases hm : m c with
    | none =>
      rw [firstPass_cons_none m used c cs hm] at hq
      simp only [List.filterMap_cons] at hq
      exact ih used q hq
    | some p =>
      rw [firstPass_cons_some m used c cs p hm] at hq
      by_cases hp : p ∈ ALPH ∧ p ∉ used
      · rw [if_pos hp] at hq
        simp only [List.filterMap_cons] at hq
        rcases List.mem_cons.mp hq with h | h
        · exact h ▸ hp
        · have := ih (used ++ [p]) q h
          exact ⟨this.1, fun hu => this.2 (List.mem_append_left _ hu)⟩
      · rw [if_neg hp] at hq
        simp only [List.filterMap_cons] at hq
        exact ih used q hq

lemma firstPass_somes_nodup (m : Char → Option Char) : ∀ (l used : List Char),
    ((firstPass m used l).filterMap (fun e => e.2)).Nodup := by
  intro l
  induction l with
  | nil => intro used; simp [firstPass]
  | cons c cs ih =>
    intro used
    cases hm : m c with
    | none =>
      rw [firstPass_cons_none m used c cs hm]
      simpa only [List.filterMap_cons] using ih used
    | some p =>
      rw [firstPass_cons_some m used c cs p hm]
      by_cases hp : p ∈ ALPH ∧ p ∉ used
      · rw [if_pos hp]
        simp only [List.filterMap_cons]
        refine List.Nodup.cons ?_ (ih (used ++ [p]))
        intro hmem
        exact (firstPass_somes_mem m cs (used ++ [p]) p hmem).2
          (List.mem_append_right _ (List.mem_singleton.mpr rfl))
      · rw [if_neg hp]
        simpa only [List.filterMap_cons] using ih used

lemma countP_add_filterMap : ∀ res : List (Char × Option Char),
    res.countP (fun e => e.2.isNone) + (res.filterMap (fun e => e.2)).length = res.length := by
  intro res
  induction res with
  | nil => rfl
  | cons e rest ih =>
    rcases e with ⟨c, p?⟩
    cases p? with
    | some p => simp [List.countP_cons, List.filterMap_cons]; omega
    | none => simp [List.countP_cons, List.filterMap_cons]; omega

lemma assignLeftovers_spec : ∀ (res : List (Char × Option Char)) (lo : List Char),
    res.countP (fun e => e.2.isNone) ≤ lo.length →
    ∃ r, assignLeftovers res lo = some r ∧
      r.map (fun p => p.1) = res.map (fun e => e.1) ∧
      (r.map (fun p => p.2)).Perm
        (res.filterMap (fun e => e.2) ++ lo.take (res.countP (fun e => e.2.isNone))) := by
  intro res
  induction res with
  | nil => intro lo h; exact ⟨[], rfl, rfl, by simp⟩
  | cons e rest ih =>
    intro lo h
    rcases e with ⟨c, p?⟩
    cases p? with
    | some p =>
      have h2 : rest.countP (fun e => e.2.isNone) ≤ lo.length := by
        simpa [List.countP_cons] using h
      obtain ⟨r, hr, hk, hperm⟩ := ih lo h2
      refine ⟨(c, p) :: r, ?_, ?_, ?_⟩
      · simp [assignLeftovers, hr]
      · simp [hk]
      · simp only [List.map_cons, List.filterMap_cons, List.countP_cons, Option.isNone_some,
          Bool.false_eq_true, if_false, Nat.add_zero, List.cons_append]
        exact hperm.cons p
    | none =>
      cases lo with
      | nil => simp [List.countP_cons] at h
      | cons x lo2 =>
        have h2 : rest.countP (fun e => e.2.isNone) ≤ lo2.length := by
          simp [List.countP_cons] at h
          omega
        obtain ⟨r, hr, hk, hperm⟩ := ih lo2 h2
        refine ⟨(c, x) :: r, ?_, ?_, ?_⟩
        · simp [assignLeftovers, hr]
        · simp [hk]
        · simp only [List.map_cons, List.filterMap_cons, List.countP_cons, Option.isNone_none,
            if_true, List.take_succ_cons]
          exact (hperm.cons x).trans List.perm_middle.symm

lemma somes_filter_perm (somes : List Char) (hnd : somes.Nodup)
    (hsub : ∀ q ∈ somes, q ∈ ALPH) :
    (ALPH.filter (fun x => x ∈ somes)).Perm somes := by
  apply List.perm_of_nodup_nodup_toFinset_eq (ALPH_nodup.filter _) hnd
  ext a
  simp only [List.mem_toFinset, List.mem_filter, decide_eq_true_eq]
  exact ⟨fun hx => hx.2, fun hx => ⟨hsub a hx, hx⟩⟩

theorem permute_fix_total (m : Char → Option Char) :
    ∃ k, permute_fix m = some k ∧ isBijKey k := by
  have hkeys : (firstPass m [] ALPH).map (fun e => e.1) = ALPH := firstPass_keys m ALPH []
  have hmem : ∀ q ∈ (firstPass m [] ALPH).filterMap (fun e => e.2), q ∈ ALPH :=
    fun q hq => (firstPass_somes_mem m ALPH [] q hq).1
  have hnd : ((firstPass m [] ALPH).filterMap (fun e => e.2)).Nodup :=
    firstPass_somes_nodup m ALPH []
  have hcnt := countP_add_filterMap (firstPass m [] ALPH)
  have hlen_res : (firstPass m [] ALPH).length = ALPH.length := by
    have := congrArg List.length hkeys
    rwa [List.length_map] at this
  -- the leftovers list and the Boolean-negated filter agree
  have hlo_eq : ALPH.filter (fun x =>
        x ∉ (firstPass m [] ALPH).filterMap (fun e => e.2)) =
      ALPH.filter (fun x => !(decide (x ∈ (firstPass m [] ALPH).filterMap (fun e => e.2)))) := by
    apply List.filter_congr
    intro x _
    simp [decide_not]
  have hsplit := List.filter_append_perm
    (fun x => decide (x ∈ (firstPass m [] ALPH).filterMap (fun e => e.2))) ALPH
  have hinperm := somes_filter_perm _ hnd hmem
  have hlo_len : (ALPH.filter (fun x =>
      x ∉ (firstPass m [] ALPH).filterMap (fun e => e.2))).length =
      (firstPass m [] ALPH).countP (fun e => e.2.isNone) := by
    have htot := hsplit.length_eq
    rw [List.length_append] at htot
    have h1 : (ALPH.filter (fun x =>
        decide (x ∈ (firstPass m [] ALPH).filterMap (fun e => e.2)))).length =
        ((firstPass m [] ALPH).filterMap (fun e => e.2)).length := hinperm.length_eq
    rw [hlo_eq]
    omega
  obtain ⟨r, hr, hk, hperm⟩ := assignLeftovers_spec (firstPass m [] ALPH)
    (ALPH.filter (fun x => x ∉ (firstPass m [] ALPH).filterMap (fun e => e.2)))
    (le_of_eq hlo_len.symm)
  refine ⟨r, hr, ?_, ?_⟩
  · rw [hk, hkeys]
  · have htake : (ALPH.filter (fun x =>
        x ∉ (firstPass m [] ALPH).filterMap (fun e => e.2))).take
        ((firstPass m [] ALPH).countP (fun e => e.2.isNone)) =
        ALPH.filter (fun x => x ∉ (firstPass m [] ALPH).filterMap (fun e => e.2)) :=
      List.take_of_length_le (le_of_eq hlo_len)
    rw [htake] at hperm
    refine hperm.trans ?_
    refine ((hinperm.symm.append_right _).trans ?_)
    rw [hlo_eq]
    exact hsplit

lemma swapImage_keys (m : Key) (a b : Char) :
    (swapImage m a b).map (fun p => p.1) = m.map (fun p => p.1) := by
  simp [swapImage, List.map_map]

lemma swapImage_images (m : Key) (a b : Char) :
    (swapImage m a b).map (fun p => p.2) = (m.map (fun p => p.2)).map (swapC a b) := by
  simp [swapImage, List.map_map]

lemma swapC_mem_ALPH (a b y : Char) (ha : a ∈ ALPH) (hb : b ∈ ALPH) (hy : y ∈ ALPH) :
    swapC a b y ∈ ALPH := by
  unfold swapC
  split_ifs <;> assumption

lemma map_swapC_perm_ALPH (l : List Char) (a b : Char) (hl : l.Perm ALPH)
    (ha : a ∈ ALPH) (hb : b ∈ ALPH) : (l.map (swapC a b)).Perm ALPH := by
  rw [List.perm_iff_count]
  intro c
  have h1 : (l.map (swapC a b)).count c = l.count (swapC a b c) := by
    conv_lhs => rw [← swapC_invol a b c]
    exact List.count_map_of_injective l _ (swapC_inj a b) _
  rw [h1, List.perm_iff_count.mp hl (swapC a b c)]
  by_cases hc : c ∈ ALPH
  · rw [List.count_eq_one_of_mem ALPH_nodup (swapC_mem_ALPH a b c ha hb hc),
        List.count_eq_one_of_mem ALPH_nodup hc]
  · have hca : c ≠ a := fun h => hc (h ▸ ha)
    have hcb : c ≠ b := fun h => hc (h ▸ hb)
    have hfix : swapC a b c = c := by simp [swapC, hca, hcb]
    rw [hfix]

lemma sample2_spec (vals : List Char) (i j : ℕ) (h2 : 2 ≤ vals.length) :
    ∃ a b, sample2 vals i j = some (a, b) ∧ a ∈ vals ∧ b ∈ vals := by
  have hpos : 0 < vals.length := by omega
  have hi1 : i % vals.length < vals.length := Nat.mod_lt i hpos
  have hj1 : (if j % (vals.length - 1) < i % vals.length then j % (vals.length - 1)
      else j % (vals.length - 1) + 1) < vals.length := by
    have hj0 : j % (vals.length - 1) < vals.length - 1 := Nat.mod_lt j (by omega)
    split_ifs <;> omega
  refine ⟨vals.getD (i % vals.length) 'a',
    vals.getD (if j % (vals.length - 1) < i % vals.length then j % (vals.length - 1)
      else j % (vals.length - 1) + 1) 'a', ?_, ?_, ?_⟩
  · simp only [sample2, if_pos h2]
  · rw [List.getD_eq_getElem?_getD, List.getElem?_eq_getElem hi1]
    exact List.getElem_mem _
  · rw [List.getD_eq_getElem?_getD, List.getElem?_eq_getElem hj1]
    exact List.getElem_mem _

lemma random_swap_key_bij (k : Key) (ord : List Char → List Char) (ij : ℕ × ℕ)
    (hk : isBijKey k) (hord : validOrd ord) :
    ∃ k2, random_swap_key k ord ij = some k2 ∧ isBijKey k2 := by
  have himg : (k.map (fun p => p.2)).Perm ALPH := hk.2
  have hnd : (k.map (fun p => p.2)).Nodup := himg.symm.nodup ALPH_nodup
  have hvals : (ord (k.map (fun p => p.2))).Perm (k.map (fun p => p.2)) := by
    have h := hord (k.map (fun p => p.2))
    rwa [List.dedup_eq_self.mpr hnd] at h
  have hlen : 2 ≤ (ord (k.map (fun p => p.2))).length := by
    rw [hvals.length_eq, himg.length_eq]
    decide
  obtain ⟨a, b, hs, ha, hb⟩ := sample2_spec (ord (k.map (fun p => p.2))) ij.1 ij.2 hlen
  have haA : a ∈ ALPH := himg.subset (hvals.subset ha)
  have hbA : b ∈ ALPH := himg.subset (hvals.subset hb)
  refine ⟨swapImage k a b, ?_, ?_, ?_⟩
  · rw [random_swap_key, hs]
  · rw [swapImage_keys]
    exact hk.1
  · rw [swapImage_images]
    exact map_swapC_perm_ALPH _ a b himg haA hbA

lemma shakeLoop_bij (env : SearchEnv) (hord : validOrd env.ord) :
    ∀ (s : ℕ) (k : Key) (np : ℕ), isBijKey k →
    ∃ k2 np2, shakeLoop env s k np = some (k2, np2) ∧ isBijKey k2 := by
  intro s
  induction s with
  | zero => exact fun k np hk => ⟨k, np, rfl, hk⟩
  | succ n ih =>
    intro k np hk
    obtain ⟨k2, hk2eq, hk2⟩ := random_swap_key_bij k env.ord (env.pairs np) hk hord
    obtain ⟨k3, np3, h3, hh3⟩ := ih k2 (np + 1) hk2
    exact ⟨k3, np3, by rw [shakeLoop, hk2eq]; exact h3, hh3⟩

/-- C1: permute_fix always yields a bijection on the alphabet (hence so does
initial_key_from_freq), and both random_swap_key and shake_key map bijections
to bijections. -/
theorem C1_keys_are_bijections :
    (∀ m : Char → Option Char, ∃ k, permute_fix m = some k ∧ isBijKey k) ∧
    (∀ (s : List Char) (force_e : Bool),
      ∃ k, initial_key_from_freq s force_e = some k ∧ isBijKey k) ∧
    (∀ (k : Key) (ord : List Char → List Char) (ij : ℕ × ℕ), isBijKey k → validOrd ord →
      ∃ k2, random_swap_key k ord ij = some k2 ∧ isBijKey k2) ∧
    (∀ (env : SearchEnv) (s : ℕ) (k : Key) (np : ℕ), isBijKey k → validOrd env.ord →
      ∃ k2 np2, shakeLoop env s k np = some (k2, np2) ∧ isBijKey k2) :=
  ⟨permute_fix_total,
   fun s force_e => permute_fix_total (dictGet (proposedOf s force_e)),
   fun k ord ij hk hord => random_swap_key_bij k ord ij hk hord,
   fun env s k np hk hord => shakeLoop_bij env hord s k np hk⟩

lemma distinctFirst_nodup : ∀ l : List Char, (distinctFirst l).Nodup
  | [] => List.nodup_nil
  | c :: rest => by
    simp only [distinctFirst]
    refine List.Nodup.cons ?_ ((distinctFirst_nodup rest).filter _)
    intro hmem
    have h := (List.mem_filter.mp hmem).2
    simp at h

lemma mem_distinctFirst : ∀ (l : List Char) (x : Char), x ∈ distinctFirst l ↔ x ∈ l
  | [], x => by simp [distinctFirst]
  | c :: rest, x => by
    simp only [distinctFirst, List.mem_cons, List.mem_filter]
    constructor
    · rintro (h | ⟨h, _⟩)
      · exact Or.inl h
      · exact Or.inr ((mem_distinctFirst rest x).mp h)
    · rintro (h | h)
      · exact Or.inl h
      · by_cases hx : x = c
        · exact Or.inl hx
        · exact Or.inr ⟨(mem_distinctFirst rest x).mpr h, by simpa using hx⟩

lemma validOrd_distinctFirst : validOrd distinctFirst := by
  intro l
  apply List.perm_of_nodup_nodup_toFinset_eq (distinctFirst_nodup l) (List.nodup_dedup l)
  ext a
  simp [mem_distinctFirst, List.mem_dedup]

theorem C1_witness :
    (∃ k, permute_fix (dictGet []) = some k ∧ isBijKey k) ∧
    isBijKey idKey ∧ validOrd distinctFirst ∧
    (∃ k2, random_swap_key idKey distinctFirst (0, 1) = some k2 ∧ isBijKey k2) :=
  ⟨C1_keys_are_bijections.1 (dictGet []),
   by decide, validOrd_distinctFirst,
   C1_keys_are_bijections.2.2.1 idKey distinctFirst (0, 1) (by decide) validOrd_distinctFirst⟩

lemma lookup_getD_ge (lb : Rat) : ∀ (t : List (List Char × Rat)), (∀ e ∈ t, lb ≤ e.2) →
    ∀ (bg : List Char) (d : Rat), lb ≤ d → lb ≤ (t.lookup bg).getD d := by
  intro t
  induction t with
  | nil => intro _ bg d hd; simpa using hd
  | cons e rest ih =>
    intro ht bg d hd
    rcases e with ⟨k, v⟩
    cases hbe : (bg == k) with
    | true =>
      simp only [List.lookup_cons, hbe, Option.getD_some]
      exact ht (k, v) (List.mem_cons_self _ _)
    | false =>
      simp only [List.lookup_cons, hbe]
      exact ih (fun e he => ht e (List.mem_cons_of_mem _ he)) bg d hd

lemma bigram_entry_ge : ∀ e ∈ BIGRAM_SCORES, (-0.8 : Rat) ≤ e.2 := by
  with_unfolding_all decide

lemma trigram_entry_ge : ∀ e ∈ TRIGRAM_SCORES, (-0.5 : Rat) ≤ e.2 := by
  with_unfolding_all decide

lemma score_text_lower (plain : List Char) (h : 1 ≤ (only_letters plain).length) :
    -(13 / 10 : Rat) * ((only_letters plain).length : Rat) - 50 ≤ score_text plain := by
  rw [score_text_eq plain h]
  have hB : ((only_letters plain).length - 1 : ℕ) • (-0.8 : Rat) ≤
      bigramTermSpec (only_letters plain) := by
    have hc := Finset.card_nsmul_le_sum (Finset.range ((only_letters plain).length - 1))
      (fun i => (BIGRAM_SCORES.lookup (((only_letters plain).drop i).take 2)).getD (-0.8))
      (-0.8) (fun i _ => lookup_getD_ge _ _ bigram_entry_ge _ _ le_rfl)
    simpa [Finset.card_range, bigramTermSpec] using hc
  have hT : ((only_letters plain).length - 2 : ℕ) • (-0.5 : Rat) ≤
      trigramTermSpec (only_letters plain) := by
    have hc := Finset.card_nsmul_le_sum (Finset.range ((only_letters plain).length - 2))
      (fun i => (TRIGRAM_SCORES.lookup (((only_letters plain).drop i).take 3)).getD (-0.5))
      (-0.5) (fun i _ => lookup_getD_ge _ _ trigram_entry_ge _ _ le_rfl)
    simpa [Finset.card_range, trigramTermSpec] using hc
  have hW : 0 ≤ lexiconTermSpec plain := by
    apply List.sum_nonneg
    intro x hx
    obtain ⟨w, _, rfl⟩ := List.mem_map.mp hx
    positivity
  have h0 : (0 : Rat) ≤ vowelRatioOf (only_letters plain) := by
    unfold vowelRatioOf
    positivity
  have h1 : vowelRatioOf (only_letters plain) ≤ 1 := by
    unfold vowelRatioOf
    rw [div_le_one (by exact_mod_cast h)]
    exact_mod_cast List.length_filter_le _ _
  have hV : (vowelRatioOf (only_letters plain) - 0.45) ^ 2 ≤ 1 := by nlinarith
  have hc1 : (((only_letters plain).length - 1 : ℕ) : Rat) ≤
      ((only_letters plain).length : Rat) := by
    exact_mod_cast Nat.sub_le _ _
  have hc2 : (((only_letters plain).length - 2 : ℕ) : Rat) ≤
      ((only_letters plain).length : Rat) := by
    exact_mod_cast Nat.sub_le _ _
  rw [nsmul_eq_mul] at hB hT
  nlinarith [hB, hT, hW, hV, hc1, hc2]

lemma splitWS_chars : ∀ (l acc : List Char) (w : List Char), w ∈ splitWS acc l →
    ∀ c ∈ w, c ∈ acc ∨ c ∈ l := by
  intro l
  induction l with
  | nil =>
    intro acc w hw c hc
    by_cases ha : acc = []
    · simp [splitWS, ha] at hw
    · rw [splitWS, if_neg ha] at hw
      rw [List.mem_singleton.mp hw] at hc
      exact Or.inl (List.mem_reverse.mp hc)
  | cons c0 rest ih =>
    intro acc w hw c hc
    by_cases hs : isSpace c0 = true
    · rw [splitWS, if_pos hs] at hw
      by_cases ha : acc = []
      · rw [if_pos ha] at hw
        rcases ih [] w hw c hc with h | h
        · simp at h
        · exact Or.inr (List.mem_cons_of_mem _ h)
      · rw [if_neg ha] at hw
        rcases List.mem_cons.mp hw with h | h
        · rw [h] at hc
          exact Or.inl (List.mem_reverse.mp hc)
        · rcases ih [] w h c hc with h2 | h2
          · simp at h2
          · exact Or.inr (List.mem_cons_of_mem _ h2)
    · rw [splitWS, if_neg hs] at hw
      rcases ih (c0 :: acc) w hw c hc with h | h
      · rcases List.mem_cons.mp h with h2 | h2
        · exact Or.inr (h2 ▸ List.mem_cons_self _ _)
        · exact Or.inl h2
      · exact Or.inr (List.mem_cons_of_mem _ h)

lemma common_word_has_letter : ∀ w ∈ COMMON_WORDS, ∃ c ∈ w, c ∈ ALPH := by decide

/-- C5 amended: letter-free text scores exactly the sentinel, and the sentinel
is strictly below the score of any text with a recognized bigram or lexicon
word whose letter projection has at most 100 million letters.  The length
bound is needed: long enough junk drives the score below the sentinel. -/
theorem C5_sentinel_amended :
    (∀ plain : List Char, only_letters plain = [] → score_text plain = SENTINEL) ∧
    (∀ plain : List Char,
      ((∃ bg ∈ bigramsOf (only_letters plain), (BIGRAM_SCORES.lookup bg).isSome) ∨
       (∃ w ∈ COMMON_WORDS, w ∈ splitWS [] plain)) →
      (only_letters plain).length ≤ 100000000 →
      SENTINEL < score_text plain) := by
  constructor
  · intro plain h
    simp [score_text, h]
  · intro plain hwit hlen
    have hn : 1 ≤ (only_letters plain).length := by
      rcases hwit with ⟨bg, hbg, _⟩ | ⟨w, hw, hmem⟩
      · cases hl : only_letters plain with
        | nil => rw [hl] at hbg; simp [bigramsOf] at hbg
        | cons c rest => simp [hl]
      · obtain ⟨c, hcw, hcA⟩ := common_word_has_letter w hw
        have hcp : c ∈ plain := by
          rcases splitWS_chars plain [] w hmem c hcw with h | h
          · simp at h
          · exact h
        have hcol : c ∈ only_letters plain :=
          List.mem_filter.mpr ⟨hcp, by simpa using hcA⟩
        cases hl : only_letters plain with
        | nil => rw [hl] at hcol; simp at hcol
        | cons x rest => simp [hl]
    have hlow := score_text_lower plain hn
    have hcast : ((only_letters plain).length : Rat) ≤ 100000000 := by exact_mod_cast hlen
    rw [show SENTINEL = -1000000000 from rfl]
    linarith

theorem C5_witness :
    ((∃ bg ∈ bigramsOf (only_letters "de".toList), (BIGRAM_SCORES.lookup bg).isSome) ∨
     (∃ w ∈ COMMON_WORDS, w ∈ splitWS [] "de".toList)) ∧
    (only_letters "de".toList).length ≤ 100000000 ∧
    SENTINEL < score_text "de".toList :=
  ⟨Or.inl ⟨['d', 'e'], by with_unfolding_all decide, by with_unfolding_all decide⟩,
   by decide,
   C5_sentinel_amended.2 "de".toList
     (Or.inl ⟨['d', 'e'], by with_unfolding_all decide, by with_unfolding_all decide⟩)
     (by decide)⟩

lemma filter_replicate_bool (p : Char → Bool) (c : Char) :
    ∀ m, (List.replicate m c).filter p = if p c then List.replicate m c else []
  | 0 => by simp
  | m + 1 => by
    rw [List.replicate_succ, List.filter_cons, filter_replicate_bool p c m]
    cases h : p c <;> simp [h, List.replicate_succ]

lemma bigramsOf_replicate (c : Char) :
    ∀ m, bigramsOf (List.replicate (m + 1) c) = List.replicate m [c, c]
  | 0 => rfl
  | m + 1 => by
    rw [List.replicate_succ, List.replicate_succ]
    rw [show bigramsOf (c :: c :: List.replicate m c) =
        [c, c] :: bigramsOf (c :: List.replicate m c) from rfl]
    rw [← List.replicate_succ c m, bigramsOf_replicate c m, List.replicate_succ]

lemma trigramsOf_replicate (c : Char) :
    ∀ m, trigramsOf (List.replicate (m + 2) c) = List.replicate m [c, c, c]
  | 0 => rfl
  | m + 1 => by
    rw [List.replicate_succ, List.replicate_succ, List.replicate_succ]
    rw [show trigramsOf (c :: c :: c :: List.replicate m c) =
        [c, c, c] :: trigramsOf (c :: c :: List.replicate m c) from rfl]
    rw [← List.replicate_succ c m, ← List.replicate_succ c (m + 1),
        trigramsOf_replicate c m, List.replicate_succ]

lemma only_letters_bigText : only_letters bigText = bigText := by
  unfold only_letters bigText
  rw [List.filter_cons, List.filter_cons, filter_replicate_bool]
  rw [if_pos (show decide (('d':Char) ∈ ALPH) = true by decide),
      if_pos (show decide (('e':Char) ∈ ALPH) = true by decide),
      if_pos (show decide (('z':Char) ∈ ALPH) = true by decide)]

lemma splitWS_no_space : ∀ (l acc : List Char), (∀ c ∈ l, isSpace c = false) →
    splitWS acc l = if acc.reverse ++ l = [] then [] else [acc.reverse ++ l] := by
  intro l
  induction l with
  | nil => intro acc h; simp [splitWS]
  | cons c0 rest ih =>
    intro acc h
    have hc0 : isSpace c0 = false := h c0 (List.mem_cons_self _ _)
    rw [splitWS, if_neg (by simp [hc0])]
    rw [ih (c0 :: acc) (fun c hc => h c (List.mem_cons_of_mem _ hc))]
    have hne : (c0 :: acc).reverse ++ rest ≠ [] := by simp
    have hne2 : acc.reverse ++ c0 :: rest ≠ [] := by simp
    rw [if_neg hne, if_neg hne2]
    simp

lemma common_word_short : ∀ w ∈ COMMON_WORDS, w.length ≤ 10 := by decide

lemma replicate_expand1 : List.replicate 1000000000 'z' = 'z' :: List.replicate 999999999 'z' := by
  rw [show (1000000000 : ℕ) = 999999999 + 1 by norm_num, List.replicate_succ]

lemma replicate_expand2 : List.replicate 999999999 'z' = 'z' :: List.replicate 999999998 'z' := by
  rw [show (999999999 : ℕ) = 999999998 + 1 by norm_num, List.replicate_succ]

lemma replicate_add_two (m : ℕ) (c : Char) :
    List.replicate (m + 2) c = c :: c :: List.replicate m c := by
  rw [show m + 2 = m + 1 + 1 from rfl, List.replicate_succ, List.replicate_succ]

lemma bigText_eq : bigText = 'd' :: 'e' :: List.replicate 1000000000 'z' := rfl

lemma bigramsOf_bigText :
    bigramsOf bigText = ['d', 'e'] :: ['e', 'z'] :: List.replicate 999999999 ['z', 'z'] := by
  rw [bigText_eq, replicate_expand1]
  rw [show bigramsOf ('d' :: 'e' :: 'z' :: List.replicate 999999999 'z') =
      ['d', 'e'] :: bigramsOf ('e' :: 'z' :: List.replicate 999999999 'z') from rfl]
  rw [show bigramsOf ('e' :: 'z' :: List.replicate 999999999 'z') =
      ['e', 'z'] :: bigramsOf ('z' :: List.replicate 999999999 'z') from rfl]
  rw [← List.replicate_succ, show (999999999 + 1 : ℕ) = 999999998 + 1 + 1 by norm_num,
      bigramsOf_replicate, show (999999998 + 1 : ℕ) = 999999999 by norm_num]

lemma trigramsOf_bigText :
    trigramsOf bigText = ['d', 'e', 'z'] :: ['e', 'z', 'z'] ::
      List.replicate 999999998 ['z', 'z', 'z'] := by
  rw [bigText_eq, replicate_expand1, replicate_expand2]
  rw [show trigramsOf ('d' :: 'e' :: 'z' :: 'z' :: List.replicate 999999998 'z') =
      ['d', 'e', 'z'] :: trigramsOf ('e' :: 'z' :: 'z' :: List.replicate 999999998 'z') from rfl]
  rw [show trigramsOf ('e' :: 'z' :: 'z' :: List.replicate 999999998 'z') =
      ['e', 'z', 'z'] :: trigramsOf ('z' :: 'z' :: List.replicate 999999998 'z') from rfl]
  rw [show ('z' :: 'z' :: List.replicate 999999998 'z') =
      List.replicate (999999998 + 2) 'z' from (replicate_add_two 999999998 'z').symm]
  rw [trigramsOf_replicate]

lemma bigText_no_space : ∀ c ∈ bigText, isSpace c = false := by
  intro c hc
  rw [bigText_eq] at hc
  rcases List.mem_cons.mp hc with rfl | hc
  · decide
  rcases List.mem_cons.mp hc with rfl | hc
  · decide
  · rw [List.eq_of_mem_replicate hc]
    decide

lemma splitWS_bigText : splitWS [] bigText = [bigText] := by
  rw [splitWS_no_space bigText [] bigText_no_space]
  have h : bigText ≠ [] := by rw [bigText_eq]; exact List.cons_ne_nil _ _
  rw [List.reverse_nil, List.nil_append, if_neg h]

lemma bigText_length : bigText.length = 1000000002 := by
  rw [bigText_eq, List.length_cons, List.length_cons, List.length_replicate]

lemma count_common_bigText : ∀ w ∈ COMMON_WORDS, (splitWS [] bigText).count w = 0 := by
  intro w hw
  rw [splitWS_bigText, List.count_eq_zero]
  intro hmem
  have heq : w = bigText := List.mem_singleton.mp hmem
  have h1 : w.length ≤ 10 := common_word_short w hw
  rw [heq, bigText_length] at h1
  omega

lemma vowels_bigText : (only_letters bigText).filter (fun ch => ch ∈ VOWELS) = ['e'] := by
  rw [only_letters_bigText, bigText_eq]
  rw [List.filter_cons, List.filter_cons, filter_replicate_bool]
  rw [if_neg (show ¬ decide (('d':Char) ∈ VOWELS) = true by decide),
      if_pos (show decide (('e':Char) ∈ VOWELS) = true by decide),
      if_neg (show ¬ decide (('z':Char) ∈ VOWELS) = true by decide)]

/-- C5 counterexample: a text that contains the recognized bigram de but whose
billion junk letters drive the score far below the sentinel, refuting that the
sentinel is below the score of every text with a recognized bigram. -/
theorem C5_counterexample :
    (['d', 'e'] ∈ bigramsOf (only_letters bigText) ∧
      (BIGRAM_SCORES.lookup ['d', 'e']).isSome) ∧
    ¬ SENTINEL < score_text bigText := by
  refine ⟨⟨?_, by with_unfolding_all decide⟩, ?_⟩
  · rw [only_letters_bigText, bigramsOf_bigText]
    exact List.mem_cons_self _ _
  · rw [not_lt]
    have hB : ((bigramsOf bigText).map
        (fun bg => (BIGRAM_SCORES.lookup bg).getD (-0.8))).sum =
        4.5 + (-0.8 + (999999999 : ℕ) • (-0.8 : Rat)) := by
      rw [bigramsOf_bigText, List.map_cons, List.map_cons,
          List.map_replicate, List.sum_cons, List.sum_cons, List.sum_replicate]
      rw [show (BIGRAM_SCORES.lookup ['d', 'e']).getD (-0.8) = (4.5 : Rat) from by
            with_unfolding_all rfl,
          show (BIGRAM_SCORES.lookup ['e', 'z']).getD (-0.8) = (-0.8 : Rat) from by
            with_unfolding_all rfl,
          show (BIGRAM_SCORES.lookup ['z', 'z']).getD (-0.8) = (-0.8 : Rat) from by
            with_unfolding_all rfl]
    have hT : ((trigramsOf bigText).map
        (fun tg => (TRIGRAM_SCORES.lookup tg).getD (-0.5))).sum =
        -0.5 + (-0.5 + (999999998 : ℕ) • (-0.5 : Rat)) := by
      rw [trigramsOf_bigText, List.map_cons, List.map_cons,
          List.map_replicate, List.sum_cons, List.sum_cons, List.sum_replicate]
      rw [show (TRIGRAM_SCORES.lookup ['d', 'e', 'z']).getD (-0.5) = (-0.5 : Rat) from by
            with_unfolding_all rfl,
          show (TRIGRAM_SCORES.lookup ['e', 'z', 'z']).getD (-0.5) = (-0.5 : Rat) from by
            with_unfolding_all rfl,
          show (TRIGRAM_SCORES.lookup ['z', 'z', 'z']).getD (-0.5) = (-0.5 : Rat) from by
            with_unfolding_all rfl]
    have hW : (COMMON_WORDS.map (fun w =>
        if (splitWS [] bigText).count w ≠ 0 then
          (6.0 : Rat) * ((splitWS [] bigText).count w : Rat) else 0)).sum = 0 := by
      apply List.sum_eq_zero
      intro x hx
      obtain ⟨w, hw, rfl⟩ := List.mem_map.mp hx
      rw [count_common_bigText w hw]
      simp
    have hvow : bigText.filter (fun ch => ch ∈ VOWELS) = ['e'] := by
      have h := vowels_bigText
      rwa [only_letters_bigText] at h
    have hn0 : ¬ bigText.length = 0 := by rw [bigText_length]; norm_num
    simp only [score_text, only_letters_bigText]
    rw [if_neg hn0, hB, hT, hW, hvow, bigText_length]
    rw [show (['e'] : List Char).length = 1 from rfl,
        show (max 1 1000000002 : ℕ) = 1000000002 by norm_num]
    rw [nsmul_eq_mul, nsmul_eq_mul]
    rw [show SENTINEL = -1000000000 from rfl]
    nlinarith [sq_nonneg ((1 : Rat) / 1000000002 - 0.45)]
lemma annealStep_some (cipher : List Char) (env : SearchEnv) (T : Rat) (st : SState)
    (nk : Key) (hrk : random_swap_key st.cur.key env.ord (env.pairs st.np) = some nk) :
    annealStep cipher env T st =
      (if 0 ≤ score_text (apply_mapping cipher nk) - st.cur.score then
        some (⟨st.np + 1, st.nu, ⟨nk, apply_mapping cipher nk,
                score_text (apply_mapping cipher nk)⟩,
              bestUpd st.best ⟨nk, apply_mapping cipher nk,
                score_text (apply_mapping cipher nk)⟩⟩,
              score_text (apply_mapping cipher nk), true)
      else if env.accept st.nu ((score_text (apply_mapping cipher nk) - st.cur.score)
          / max T (1 / 1000000)) then
        some (⟨st.np + 1, st.nu + 1, ⟨nk, apply_mapping cipher nk,
                score_text (apply_mapping cipher nk)⟩,
              bestUpd st.best ⟨nk, apply_mapping cipher nk,
                score_text (apply_mapping cipher nk)⟩⟩,
              score_text (apply_mapping cipher nk), true)
      else
        some (⟨st.np + 1, st.nu + 1, st.cur, st.best⟩,
              score_text (apply_mapping cipher nk), false)) := by
  unfold annealStep
  rw [hrk]
  by_cases hd : 0 ≤ score_text (apply_mapping cipher nk) - st.cur.score
  · simp [hd]
  · cases ha : env.accept st.nu ((score_text (apply_mapping cipher nk) - st.cur.score)
        / max T (1 / 1000000)) <;>
      rw [one_div] at ha <;> simp [hd, ha]

lemma annealStep_none (cipher : List Char) (env : SearchEnv) (T : Rat) (st : SState)
    (hrk : random_swap_key st.cur.key env.ord (env.pairs st.np) = none) :
    annealStep cipher env T st = none := by
  unfold annealStep
  rw [hrk]

lemma bestUpd_score (b c : Cand) : (bestUpd b c).score = max b.score c.score := by
  unfold bestUpd
  split_ifs with h
  · exact (max_eq_right (le_of_lt h)).symm
  · exact (max_eq_left (not_lt.mp h)).symm

lemma bestUpd_cases (b c : Cand) : bestUpd b c = b ∨ bestUpd b c = c := by
  unfold bestUpd
  split_ifs
  · exact Or.inr rfl
  · exact Or.inl rfl

lemma annealStep_inv (cipher : List Char) (env : SearchEnv) (T : Rat) (st st2 : SState)
    (ns : Rat) (acc : Bool) (h : annealStep cipher env T st = some (st2, ns, acc)) :
    ∃ nk, random_swap_key st.cur.key env.ord (env.pairs st.np) = some nk ∧
      ns = score_text (apply_mapping cipher nk) ∧
      ((acc = true ∧ st2.cur = ⟨nk, apply_mapping cipher nk, ns⟩ ∧
        st2.best = bestUpd st.best ⟨nk, apply_mapping cipher nk, ns⟩) ∨
       (acc = false ∧ st2.cur = st.cur ∧ st2.best = st.best)) := by
  cases hrk : random_swap_key st.cur.key env.ord (env.pairs st.np) with
  | none => rw [annealStep_none cipher env T st hrk] at h; exact Option.noConfusion h
  | some nk =>
    rw [annealStep_some cipher env T st nk hrk] at h
    refine ⟨nk, rfl, ?_⟩
    split_ifs at h with hd ha
    · simp only [Option.some.injEq, Prod.mk.injEq] at h
      obtain ⟨h1, h2, h3⟩ := h
      subst h2
      subst h3
      exact ⟨rfl, Or.inl ⟨rfl, by rw [← h1], by rw [← h1]⟩⟩
    · simp only [Option.some.injEq, Prod.mk.injEq] at h
      obtain ⟨h1, h2, h3⟩ := h
      subst h2
      subst h3
      exact ⟨rfl, Or.inl ⟨rfl, by rw [← h1], by rw [← h1]⟩⟩
    · simp only [Option.some.injEq, Prod.mk.injEq] at h
      obtain ⟨h1, h2, h3⟩ := h
      subst h2
      subst h3
      exact ⟨rfl, Or.inr ⟨rfl, by rw [← h1], by rw [← h1]⟩⟩

lemma annealLoop_succ (cipher : List Char) (env : SearchEnv) (iters rem : ℕ) (st : SState) :
    annealLoop cipher env iters (rem + 1) st =
      match annealStep cipher env (temp (iters - rem) iters) st with
      | none => none
      | some (st2, nscore, acc) =>
        match annealLoop cipher env iters rem st2 with
        | none => none
        | some (stF, g) =>
          some (stF, ⟨nscore :: g.scored,
                      if acc then nscore :: g.accepted else g.accepted,
                      st2.best.score :: g.bests⟩) := rfl

lemma annealLoop_ghost (cipher : List Char) (env : SearchEnv) (iters : ℕ) :
    ∀ (rem : ℕ) (st stF : SState) (g : Ghost),
    annealLoop cipher env iters rem st = some (stF, g) →
    stF.best.score = g.accepted.foldl max st.best.score ∧
    List.Chain' (· ≤ ·) (st.best.score :: g.bests) ∧
    (st.best.score :: g.bests).getLast? = some stF.best.score ∧
    (∀ x ∈ g.accepted, x ∈ g.scored) ∧
    (∀ x ∈ g.scored, ∃ k, x = score_text (apply_mapping cipher k)) := by
  intro rem
  induction rem with
  | zero =>
    intro st stF g h
    obtain ⟨h1, h2⟩ := Prod.mk.injEq .. ▸ Option.some.inj h
    subst h1
    subst h2
    refine ⟨rfl, List.chain'_singleton _, rfl, ?_, ?_⟩ <;> intro x hx <;> simp at hx
  | succ rem ih =>
    intro st stF g h
    rw [annealLoop_succ] at h
    cases hstep : annealStep cipher env (temp (iters - rem) iters) st with
    | none => rw [hstep] at h; exact Option.noConfusion h
    | some trip =>
      obtain ⟨st2, ns, acc⟩ := trip
      rw [hstep] at h
      dsimp only at h
      cases hrec : annealLoop cipher env iters rem st2 with
      | none => rw [hrec] at h; exact Option.noConfusion h
      | some pr =>
        obtain ⟨stF2, g2⟩ := pr
        rw [hrec] at h
        simp only [Option.some.injEq, Prod.mk.injEq] at h
        obtain ⟨hF, hg⟩ := h
        subst hF
        subst hg
        obtain ⟨ih1, ih2, ih3, ih4, ih5⟩ := ih st2 stF2 g2 hrec
        obtain ⟨nk, hrk, hns, hcase⟩ :=
          annealStep_inv cipher env (temp (iters - rem) iters) st st2 ns acc hstep
        have hbest2 : st2.best.score = if acc = true then max st.best.score ns
            else st.best.score := by
          rcases hcase with ⟨hacc, _, hb⟩ | ⟨hacc, _, hb⟩
          · rw [hacc, if_pos rfl, hb, bestUpd_score]
          · rw [hacc, hb]
            simp
        have hmono : st.best.score ≤ st2.best.score := by
          rw [hbest2]
          split_ifs
          · exact le_max_left _ _
          · exact le_refl _
        refine ⟨?_, ?_, ?_, ?_, ?_⟩
        · cases acc with
          | true =>
            simp only [if_true]
            rw [List.foldl_cons, ih1, hbest2]
            simp
          | false =>
            simp only [Bool.false_eq_true, if_false]
            rw [ih1, hbest2]
            simp
        · exact List.chain'_cons.mpr ⟨hmono, ih2⟩
        · rw [List.getLast?_cons_cons]
          exact ih3
        · intro x hx
          cases acc with
          | true =>
            simp only [if_true] at hx
            rcases List.mem_cons.mp hx with rfl | hx
            · exact List.mem_cons_self _ _
            · exact List.mem_cons_of_mem _ (ih4 x hx)
          | false =>
            simp only [Bool.false_eq_true, if_false] at hx
            exact List.mem_cons_of_mem _ (ih4 x hx)
        · intro x hx
          rcases List.mem_cons.mp hx with rfl | hx
          · exact ⟨nk, hns⟩
          · exact ih5 x hx

lemma annealLoop_success (cipher : List Char) (env : SearchEnv) (iters : ℕ)
    (hord : validOrd env.ord) :
    ∀ (rem : ℕ) (st : SState), isBijKey st.cur.key → isBijKey st.best.key →
    ∃ stF g, annealLoop cipher env iters rem st = some (stF, g) ∧
      isBijKey stF.cur.key ∧ isBijKey stF.best.key := by
  intro rem
  induction rem with
  | zero => intro st h1 h2; exact ⟨st, ⟨[], [], []⟩, rfl, h1, h2⟩
  | succ rem ih =>
    intro st h1 h2
    obtain ⟨nk, hrk, hbij⟩ := random_swap_key_bij st.cur.key env.ord (env.pairs st.np) h1 hord
    rw [annealLoop_succ, annealStep_some cipher env (temp (iters - rem) iters) st nk hrk]
    split_ifs with hd ha
    · have hb2 : isBijKey (bestUpd st.best
          ⟨nk, apply_mapping cipher nk, score_text (apply_mapping cipher nk)⟩).key := by
        rcases bestUpd_cases st.best
            ⟨nk, apply_mapping cipher nk, score_text (apply_mapping cipher nk)⟩ with h | h <;>
          rw [h]
        · exact h2
        · exact hbij
      obtain ⟨stF, g, hrec, hf1, hf2⟩ := ih ⟨st.np + 1, st.nu,
        ⟨nk, apply_mapping cipher nk, score_text (apply_mapping cipher nk)⟩,
        bestUpd st.best ⟨nk, apply_mapping cipher nk,
          score_text (apply_mapping cipher nk)⟩⟩ hbij hb2
      dsimp only
      rw [hrec]
      exact ⟨stF, _, rfl, hf1, hf2⟩
    · have hb2 : isBijKey (bestUpd st.best
          ⟨nk, apply_mapping cipher nk, score_text (apply_mapping cipher nk)⟩).key := by
        rcases bestUpd_cases st.best
            ⟨nk, apply_mapping cipher nk, score_text (apply_mapping cipher nk)⟩ with h | h <;>
          rw [h]
        · exact h2
        · exact hbij
      obtain ⟨stF, g, hrec, hf1, hf2⟩ := ih ⟨st.np + 1, st.nu + 1,
        ⟨nk, apply_mapping cipher nk, score_text (apply_mapping cipher nk)⟩,
        bestUpd st.best ⟨nk, apply_mapping cipher nk,
          score_text (apply_mapping cipher nk)⟩⟩ hbij hb2
      dsimp only
      rw [hrec]
      exact ⟨stF, _, rfl, hf1, hf2⟩
    · obtain ⟨stF, g, hrec, hf1, hf2⟩ := ih ⟨st.np + 1, st.nu + 1, st.cur, st.best⟩ h1 h2
      dsimp only
      rw [hrec]
      exact ⟨stF, _, rfl, hf1, hf2⟩

lemma chain_glue : ∀ (l1 : List Rat) (b bm bf : Rat) (l2 : List Rat),
    List.Chain' (· ≤ ·) (b :: l1) → (b :: l1).getLast? = some bm →
    List.Chain' (· ≤ ·) (bm :: l2) → (bm :: l2).getLast? = some bf →
    List.Chain' (· ≤ ·) (b :: (l1 ++ l2)) ∧ (b :: (l1 ++ l2)).getLast? = some bf := by
  intro l1
  induction l1 with
  | nil =>
    intro b bm bf l2 h1 hlast h2 hlast2
    have hb : b = bm := by simpa using hlast
    subst hb
    exact ⟨h2, hlast2⟩
  | cons x l1 ih =>
    intro b bm bf l2 h1 hlast h2 hlast2
    rw [List.chain'_cons] at h1
    have hlast3 : (x :: l1).getLast? = some bm := by
      rw [List.getLast?_cons_cons] at hlast
      exact hlast
    obtain ⟨hc, hl⟩ := ih x bm bf l2 h1.2 hlast3 h2 hlast2
    refine ⟨List.chain'_cons.mpr ⟨h1.1, hc⟩, ?_⟩
    rw [List.cons_append, List.getLast?_cons_cons]
    exact hl

lemma restartLoop_succ (cipher : List Char) (env : SearchEnv) (iters restarts : ℕ)
    (baseKey : Key) (rem : ℕ) (ctrs : ℕ × ℕ) (best : Cand) :
    restartLoop cipher env iters restarts baseKey (rem + 1) ctrs best =
      match (if restarts - (rem + 1) = 0 then some (baseKey, ctrs.1)
             else shakeLoop env 50 baseKey ctrs.1) with
      | none => none
      | some (ck, np1) =>
        match annealLoop cipher env iters iters
            ⟨np1, ctrs.2, ⟨ck, apply_mapping cipher ck,
              score_text (apply_mapping cipher ck)⟩, best⟩ with
        | none => none
        | some (stF, g) =>
          match restartLoop cipher env iters restarts baseKey rem (stF.np, stF.nu) stF.best with
          | none => none
          | some (ctrsF, bestF, g2) =>
            some (ctrsF, bestF,
                  ⟨score_text (apply_mapping cipher ck) :: (g.scored ++ g2.scored),
                   g.accepted ++ g2.accepted, g.bests ++ g2.bests⟩) := rfl

lemma restartLoop_ghost (cipher : List Char) (env : SearchEnv) (iters restarts : ℕ)
    (baseKey : Key) :
    ∀ (rem : ℕ) (ctrs : ℕ × ℕ) (best : Cand) (ctrsF : ℕ × ℕ) (bestF : Cand) (g : Ghost),
    restartLoop cipher env iters restarts baseKey rem ctrs best = some (ctrsF, bestF, g) →
    bestF.score = g.accepted.foldl max best.score ∧
    List.Chain' (· ≤ ·) (best.score :: g.bests) ∧
    (best.score :: g.bests).getLast? = some bestF.score ∧
    (∀ x ∈ g.accepted, x ∈ g.scored) ∧
    (∀ x ∈ g.scored, ∃ k, x = score_text (apply_mapping cipher k)) := by
  intro rem
  induction rem with
  | zero =>
    intro ctrs best ctrsF bestF g h
    simp only [restartLoop, Option.some.injEq, Prod.mk.injEq] at h
    obtain ⟨h1, h2, h3⟩ := h
    subst h2
    subst h3
    refine ⟨rfl, List.chain'_singleton _, rfl, ?_, ?_⟩ <;> intro x hx <;> simp at hx
  | succ rem ih =>
    intro ctrs best ctrsF bestF g h
    rw [restartLoop_succ] at h
    cases hstart : (if restarts - (rem + 1) = 0 then some (baseKey, ctrs.1)
        else shakeLoop env 50 baseKey ctrs.1) with
    | none => rw [hstart] at h; exact Option.noConfusion h
    | some pr =>
      obtain ⟨ck, np1⟩ := pr
      rw [hstart] at h
      dsimp only at h
      cases hann : annealLoop cipher env iters iters
          ⟨np1, ctrs.2, ⟨ck, apply_mapping cipher ck,
            score_text (apply_mapping cipher ck)⟩, best⟩ with
      | none => rw [hann] at h; exact Option.noConfusion h
      | some pr2 =>
        obtain ⟨stF0, g1⟩ := pr2
        rw [hann] at h
        dsimp only at h
        cases hrest : restartLoop cipher env iters restarts baseKey rem
            (stF0.np, stF0.nu) stF0.best with
        | none => rw [hrest] at h; exact Option.noConfusion h
        | some pr3 =>
          obtain ⟨ctrsF2, bestF2, g2⟩ := pr3
          rw [hrest] at h
          simp only [Option.some.injEq, Prod.mk.injEq] at h
          obtain ⟨hc, hb, hg⟩ := h
          subst hb
          subst hg
          obtain ⟨a1, a2, a3, a4, a5⟩ := annealLoop_ghost cipher env iters iters _ stF0 g1 hann
          obtain ⟨r1, r2, r3, r4, r5⟩ := ih (stF0.np, stF0.nu) stF0.best ctrsF2 bestF2 g2 hrest
          obtain ⟨hcg, hlg⟩ := chain_glue g1.bests best.score stF0.best.score bestF2.score
            g2.bests a2 a3 r2 r3
          refine ⟨?_, hcg, hlg, ?_, ?_⟩
          · rw [r1, a1, List.foldl_append]
          · intro x hx
            rcases List.mem_append.mp hx with hx | hx
            · exact List.mem_cons_of_mem _ (List.mem_append_left _ (a4 x hx))
            · exact List.mem_cons_of_mem _ (List.mem_append_right _ (r4 x hx))
          · intro x hx
            rcases List.mem_cons.mp hx with rfl | hx
            · exact ⟨ck, rfl⟩
            · rcases List.mem_append.mp hx with hx | hx
              · exact a5 x hx
              · exact r5 x hx

lemma restartLoop_success (cipher : List Char) (env : SearchEnv) (iters restarts : ℕ)
    (baseKey : Key) (hord : validOrd env.ord) (hbase : isBijKey baseKey) :
    ∀ (rem : ℕ) (ctrs : ℕ × ℕ) (best : Cand), isBijKey best.key →
    ∃ ctrsF bestF g, restartLoop cipher env iters restarts baseKey rem ctrs best =
      some (ctrsF, bestF, g) ∧ isBijKey bestF.key := by
  intro rem
  induction rem with
  | zero => intro ctrs best hb; exact ⟨ctrs, best, ⟨[], [], []⟩, rfl, hb⟩
  | succ rem ih =>
    intro ctrs best hb
    rw [restartLoop_succ]
    have hstart : ∃ ck np1, (if restarts - (rem + 1) = 0 then some (baseKey, ctrs.1)
        else shakeLoop env 50 baseKey ctrs.1) = some (ck, np1) ∧ isBijKey ck := by
      split_ifs with hr
      · exact ⟨baseKey, ctrs.1, rfl, hbase⟩
      · obtain ⟨k2, np2, hsh, hk2⟩ := shakeLoop_bij env hord 50 baseKey ctrs.1 hbase
        exact ⟨k2, np2, hsh, hk2⟩
    obtain ⟨ck, np1, hseq, hck⟩ := hstart
    rw [hseq]
    dsimp only
    obtain ⟨stF, g, hann, hcb, hbb⟩ := annealLoop_success cipher env iters hord iters
      ⟨np1, ctrs.2, ⟨ck, apply_mapping cipher ck,
        score_text (apply_mapping cipher ck)⟩, best⟩ hck hb
    rw [hann]
    dsimp only
    obtain ⟨ctrsF, bestF, g2, hrest, hbf⟩ := ih (stF.np, stF.nu) stF.best hbb
    rw [hrest]
    exact ⟨ctrsF, bestF, _, rfl, hbf⟩

lemma decipherT_eq (cipher : List Char) (restarts iters : ℕ) (env : SearchEnv)
    (force_e : Bool) :
    decipherT cipher restarts iters env force_e =
      match initial_key_from_freq (only_letters cipher) force_e with
      | none => none
      | some base_key =>
        match restartLoop cipher env iters restarts base_key restarts (0, 0)
            ⟨base_key, apply_mapping cipher base_key,
              score_text (apply_mapping cipher base_key)⟩ with
        | none => none
        | some (_, bestF, g) =>
          some ⟨bestF.plain, bestF.key, bestF.score,
                score_text (apply_mapping cipher base_key), g⟩ := rfl

lemma le_foldl_max : ∀ (l : List Rat) (b : Rat), b ≤ l.foldl max b
  | [], b => le_refl b
  | x :: l, b => le_trans (le_max_left b x) (le_foldl_max l (max b x))

lemma foldl_max_eq : ∀ (l : List Rat) (b : Rat), (∀ x ∈ l, x ≤ b) → l.foldl max b = b
  | [], _, _ => rfl
  | x :: l, b, h => by
    rw [List.foldl_cons, max_eq_left (h x (List.mem_cons_self _ _))]
    exact foldl_max_eq l b (fun y hy => h y (List.mem_cons_of_mem _ hy))

lemma score_sentinel_of_empty (plain : List Char) (h : only_letters plain = []) :
    score_text plain = SENTINEL := by
  simp [score_text, h]

lemma apply_mapping_letter_free (cipher : List Char) (h : only_letters cipher = [])
    (k : Key) : only_letters (apply_mapping cipher k) = [] := by
  unfold apply_mapping only_letters
  apply List.filter_eq_nil_iff.mpr
  intro x hx
  obtain ⟨c, hc, rfl⟩ := List.mem_map.mp hx
  have hcA : c ∉ ALPH := by
    have h2 := List.filter_eq_nil_iff.mp h c hc
    simpa using h2
  rw [if_neg hcA]
  simpa using hcA

/-- C6 amended: on any successful run the returned score is the maximum of the
seed score and the scores of all accepted candidates, and the tracked best
score is monotonically non-decreasing over the run.  Scored but rejected
proposals and shaken restart starting points do not enter the maximum. -/
theorem C6_best_tracking_amended (cipher : List Char) (restarts iters : ℕ)
    (env : SearchEnv) (force_e : Bool) (out : RunOut)
    (h : decipherT cipher restarts iters env force_e = some out) :
    out.score = out.ghost.accepted.foldl max out.seedScore ∧
    List.Chain' (· ≤ ·) (out.seedScore :: out.ghost.bests) ∧
    out.seedScore ≤ out.score := by
  rw [decipherT_eq] at h
  cases hik : initial_key_from_freq (only_letters cipher) force_e with
  | none => rw [hik] at h; exact Option.noConfusion h
  | some base_key =>
    rw [hik] at h
    dsimp only at h
    cases hrl : restartLoop cipher env iters restarts base_key restarts (0, 0)
        ⟨base_key, apply_mapping cipher base_key,
          score_text (apply_mapping cipher base_key)⟩ with
    | none => rw [hrl] at h; exact Option.noConfusion h
    | some pr =>
      obtain ⟨ctrsF, bestF, g⟩ := pr
      rw [hrl] at h
      have hout : out = ⟨bestF.plain, bestF.key, bestF.score,
          score_text (apply_mapping cipher base_key), g⟩ := (Option.some.inj h).symm
      obtain ⟨r1, r2, _, _, _⟩ := restartLoop_ghost cipher env iters restarts base_key
        restarts (0, 0) _ ctrsF bestF g hrl
      subst hout
      exact ⟨r1, r2, r1 ▸ le_foldl_max _ _⟩

lemma bestUpd_eq_self_or (b c : Cand) :
    bestUpd b c = b ∨ (bestUpd b c = c ∧ b.score < c.score) := by
  unfold bestUpd
  split_ifs with h
  · exact Or.inr ⟨rfl, h⟩
  · exact Or.inl rfl

lemma annealLoop_best_id (cipher : List Char) (env : SearchEnv) (iters : ℕ) :
    ∀ (rem : ℕ) (st stF : SState) (g : Ghost),
    annealLoop cipher env iters rem st = some (stF, g) →
    stF.best = st.best ∨ (stF.best.score ∈ g.accepted ∧ st.best.score < stF.best.score) := by
  intro rem
  induction rem with
  | zero =>
    intro st stF g h
    obtain ⟨h1, h2⟩ := Prod.mk.injEq .. ▸ Option.some.inj h
    subst h1
    exact Or.inl rfl
  | succ rem ih =>
    intro st stF g h
    rw [annealLoop_succ] at h
    cases hstep : annealStep cipher env (temp (iters - rem) iters) st with
    | none => rw [hstep] at h; exact Option.noConfusion h
    | some trip =>
      obtain ⟨st2, ns, acc⟩ := trip
      rw [hstep] at h
      dsimp only at h
      cases hrec : annealLoop cipher env iters rem st2 with
      | none => rw [hrec] at h; exact Option.noConfusion h
      | some pr =>
        obtain ⟨stF2, g2⟩ := pr
        rw [hrec] at h
        simp only [Option.some.injEq, Prod.mk.injEq] at h
        obtain ⟨hF, hg⟩ := h
        subst hF
        subst hg
        obtain ⟨nk, hrk, hns, hcase⟩ :=
          annealStep_inv cipher env (temp (iters - rem) iters) st st2 ns acc hstep
        have hmem : ∀ y, y ∈ g2.accepted →
            y ∈ (if acc = true then ns :: g2.accepted else g2.accepted) := by
          intro y hy
          split_ifs
          · exact List.mem_cons_of_mem _ hy
          · exact hy
        rcases hcase with ⟨hacc, _, hb⟩ | ⟨hacc, _, hb⟩
        · rcases bestUpd_eq_self_or st.best ⟨nk, apply_mapping cipher nk, ns⟩ with hu | ⟨hu, hlt⟩
          · rw [hu] at hb
            rcases ih st2 stF2 g2 hrec with h2 | ⟨h2a, h2b⟩
            · exact Or.inl (h2.trans hb)
            · exact Or.inr ⟨hmem _ h2a, hb ▸ h2b⟩
          · rcases ih st2 stF2 g2 hrec with h2 | ⟨h2a, h2b⟩
            · refine Or.inr ⟨?_, ?_⟩
              · rw [h2, hb, hu, hacc]
                exact List.mem_cons_self _ _
              · rw [h2, hb, hu]
                exact hlt
            · refine Or.inr ⟨hmem _ h2a, lt_trans ?_ h2b⟩
              rw [hb, hu]
              exact hlt
        · rcases ih st2 stF2 g2 hrec with h2 | ⟨h2a, h2b⟩
          · exact Or.inl (h2.trans hb)
          · exact Or.inr ⟨hmem _ h2a, hb ▸ h2b⟩

lemma restartLoop_best_id (cipher : List Char) (env : SearchEnv) (iters restarts : ℕ)
    (baseKey : Key) :
    ∀ (rem : ℕ) (ctrs : ℕ × ℕ) (best : Cand) (ctrsF : ℕ × ℕ) (bestF : Cand) (g : Ghost),
    restartLoop cipher env iters restarts baseKey rem ctrs best = some (ctrsF, bestF, g) →
    bestF = best ∨ (bestF.score ∈ g.accepted ∧ best.score < bestF.score) := by
  intro rem
  induction rem with
  | zero =>
    intro ctrs best ctrsF bestF g h
    simp only [restartLoop, Option.some.injEq, Prod.mk.injEq] at h
    obtain ⟨h1, h2, h3⟩ := h
    subst h2
    exact Or.inl rfl
  | succ rem ih =>
    intro ctrs best ctrsF bestF g h
    rw [restartLoop_succ] at h
    cases hstart : (if restarts - (rem + 1) = 0 then some (baseKey, ctrs.1)
        else shakeLoop env 50 baseKey ctrs.1) with
    | none => rw [hstart] at h; exact Option.noConfusion h
    | some pr =>
      obtain ⟨ck, np1⟩ := pr
      rw [hstart] at h
      dsimp only at h
      cases hann : annealLoop cipher env iters iters
          ⟨np1, ctrs.2, ⟨ck, apply_mapping cipher ck,
            score_text (apply_mapping cipher ck)⟩, best⟩ with
      | none => rw [hann] at h; exact Option.noConfusion h
      | some pr2 =>
        obtain ⟨stF0, g1⟩ := pr2
        rw [hann] at h
        dsimp only at h
        cases hrest : restartLoop cipher env iters restarts baseKey rem
            (stF0.np, stF0.nu) stF0.best with
        | none => rw [hrest] at h; exact Option.noConfusion h
        | some pr3 =>
          obtain ⟨ctrsF2, bestF2, g2⟩ := pr3
          rw [hrest] at h
          simp only [Option.some.injEq, Prod.mk.injEq] at h
          obtain ⟨hc, hb, hg⟩ := h
          subst hb
          subst hg
          have ha := annealLoop_best_id cipher env iters iters _ stF0 g1 hann
          have hr := ih (stF0.np, stF0.nu) stF0.best ctrsF2 bestF2 g2 hrest
          rcases hr with hr | ⟨hr1, hr2⟩
          · subst hr
            rcases ha with ha | ⟨ha1, ha2⟩
            · exact Or.inl ha
            · exact Or.inr ⟨List.mem_append_left _ ha1, ha2⟩
          · rcases ha with ha | ⟨ha1, ha2⟩
            · rw [ha] at hr2
              exact Or.inr ⟨List.mem_append_right _ hr1, hr2⟩
            · exact Or.inr ⟨List.mem_append_right _ hr1, lt_trans ha2 hr2⟩

/-- C7: with a valid environment the engine never fails: the seed key always
exists, decipher returns a result, the returned score is at least the score
of the seed decode, on letter-free input the returned score is the sentinel,
and when no accepted move ever improves on the seed the returned triple is
the seed decode itself. -/
theorem C7_decipher_total (cipher : List Char) (restarts iters : ℕ) (env : SearchEnv)
    (force_e : Bool) (hord : validOrd env.ord) :
    ∃ k0 plain key score,
      initial_key_from_freq (only_letters cipher) force_e = some k0 ∧
      decipher cipher restarts iters env force_e = some (plain, key, score) ∧
      score_text (apply_mapping cipher k0) ≤ score ∧
      (only_letters cipher = [] → score = SENTINEL) ∧
      (∀ out, decipherT cipher restarts iters env force_e = some out →
        (∀ x ∈ out.ghost.accepted, x ≤ score_text (apply_mapping cipher k0)) →
        plain = apply_mapping cipher k0 ∧ key = k0 ∧
        score = score_text (apply_mapping cipher k0)) := by
  obtain ⟨k0, hik, hkbij⟩ := permute_fix_total (dictGet (proposedOf (only_letters cipher) force_e))
  have hik2 : initial_key_from_freq (only_letters cipher) force_e = some k0 := hik
  obtain ⟨ctrsF, bestF, g, hrl, _⟩ := restartLoop_success cipher env iters restarts k0 hord
    hkbij restarts (0, 0)
    ⟨k0, apply_mapping cipher k0, score_text (apply_mapping cipher k0)⟩ hkbij
  have hdT : decipherT cipher restarts iters env force_e =
      some ⟨bestF.plain, bestF.key, bestF.score,
            score_text (apply_mapping cipher k0), g⟩ := by
    rw [decipherT_eq, hik2]
    dsimp only
    rw [hrl]
  refine ⟨k0, bestF.plain, bestF.key, bestF.score, hik2, ?_, ?_, ?_, ?_⟩
  · unfold decipher
    rw [hdT]
    rfl
  · obtain ⟨r1, _, _, _, _⟩ := restartLoop_ghost cipher env iters restarts k0
      restarts (0, 0) _ ctrsF bestF g hrl
    exact r1 ▸ le_foldl_max _ _
  · intro hfree
    obtain ⟨r1, _, _, r4, r5⟩ := restartLoop_ghost cipher env iters restarts k0
      restarts (0, 0) _ ctrsF bestF g hrl
    have hseed : score_text (apply_mapping cipher k0) = SENTINEL :=
      score_sentinel_of_empty _ (apply_mapping_letter_free cipher hfree k0)
    have hacc : ∀ x ∈ g.accepted, x ≤ SENTINEL := by
      intro x hx
      obtain ⟨k, hk⟩ := r5 x (r4 x hx)
      rw [hk, score_sentinel_of_empty _ (apply_mapping_letter_free cipher hfree k)]
    rw [r1, hseed, foldl_max_eq g.accepted SENTINEL hacc]
  · intro out hout hbound
    rw [hdT] at hout
    have hout2 := Option.some.inj hout
    rcases restartLoop_best_id cipher env iters restarts k0 restarts (0, 0) _
        ctrsF bestF g hrl with hid | ⟨hin, hlt⟩
    · rw [hid]
      exact ⟨rfl, rfl, rfl⟩
    · exfalso
      have hb := hbound bestF.score (by rw [← hout2]; exact hin)
      exact absurd hb (not_le.mpr hlt)

/-- C9 amended: the engine is deterministic relative to the full random
environment: two runs on the same ciphertext and parameters whose PRNG
streams and set iteration order coincide return identical results.  An
explicit seed fixes the PRNG streams but not the set iteration order. -/
theorem C9_determinism_amended (cipher : List Char) (restarts iters : ℕ)
    (env1 env2 : SearchEnv) (force_e : Bool)
    (hord : env1.ord = env2.ord) (hpairs : env1.pairs = env2.pairs)
    (hacc : env1.accept = env2.accept) :
    decipher cipher restarts iters env1 force_e =
      decipher cipher restarts iters env2 force_e := by
  obtain ⟨o1, p1, a1⟩ := env1
  obtain ⟨o2, p2, a2⟩ := env2
  simp only at hord hpairs hacc
  rw [hord, hpairs, hacc]

lemma validOrd_distinctFirst_reverse : validOrd (fun l => (distinctFirst l).reverse) :=
  fun l => (List.reverse_perm _).trans (validOrd_distinctFirst l)

set_option maxRecDepth 400000 in
/-- C9 counterexample: two runs with the same ciphertext, parameters and PRNG
index stream, but two different (equally realizable) set iteration orders,
return different plaintexts.  Since Python salts string hashes per process,
independent invocations with the same seed can realize different set orders,
so the seed alone does not make two independent invocations agree. -/
theorem C9_counterexample :
    validOrd c9envA.ord ∧ validOrd c9envB.ord ∧
    c9envA.pairs = c9envB.pairs ∧ c9envA.accept = c9envB.accept ∧
    ((decipher c9cipher 1 1 c9envA true).map (fun o => o.1)) ≠
      ((decipher c9cipher 1 1 c9envB true).map (fun o => o.1)) :=
  ⟨validOrd_distinctFirst, validOrd_distinctFirst_reverse, rfl, rfl, by
    with_unfolding_all decide⟩

theorem C9_witness :
    decipher c9cipher 1 1 c9envA true = decipher c9cipher 1 1 c9envA true :=
  C9_determinism_amended c9cipher 1 1 c9envA c9envA true rfl rfl rfl

set_option maxRecDepth 400000 in
/-- C6 counterexample: a run in which the shaken starting point of restart 1
is decoded and scored, beats every accepted candidate, but is never recorded
as best, so the returned score is strictly below the maximum scored
candidate. -/
theorem C6_counterexample :
    validOrd c6env.ord ∧ c6run.isSome = true ∧
    ((c6run.map (fun o => o.score)).getD 0) <
      ((c6run.map (fun o => o.ghost.scored.foldl max o.score)).getD 0) :=
  ⟨validOrd_distinctFirst, by with_unfolding_all decide, by with_unfolding_all decide⟩

lemma option_eq_some_getD {α : Type} (o : Option α) (d : α) (h : o.isSome = true) :
    o = some (o.getD d) := by
  cases o
  · simp at h
  · rfl

lemma w6run_isSome : (decipherT [] 0 0 c9envA true).isSome = true := by
  with_unfolding_all decide

set_option maxRecDepth 400000 in
theorem C6_witness :
    decipherT [] 0 0 c9envA true = some w6out ∧
    (w6out.score = w6out.ghost.accepted.foldl max w6out.seedScore ∧
     List.Chain' (· ≤ ·) (w6out.seedScore :: w6out.ghost.bests) ∧
     w6out.seedScore ≤ w6out.score) :=
  ⟨option_eq_some_getD _ _ w6run_isSome,
   C6_best_tracking_amended [] 0 0 c9envA true w6out (option_eq_some_getD _ _ w6run_isSome)⟩

theorem C7_witness :
    ∃ k0 plain key score,
      initial_key_from_freq (only_letters "de la casa".toList) true = some k0 ∧
      decipher "de la casa".toList 1 1 c9envA true = some (plain, key, score) ∧
      score_text (apply_mapping "de la casa".toList k0) ≤ score ∧
      (only_letters "de la casa".toList = [] → score = SENTINEL) ∧
      (∀ out, decipherT "de la casa".toList 1 1 c9envA true = some out →
        (∀ x ∈ out.ghost.accepted, x ≤ score_text (apply_mapping "de la casa".toList k0)) →
        plain = apply_mapping "de la casa".toList k0 ∧ key = k0 ∧
        score = score_text (apply_mapping "de la casa".toList k0)) :=
  C7_decipher_total "de la casa".toList 1 1 c9envA true validOrd_distinctFirst

end Descifrador
